import Mathlib

/-!
Verification of `gpenessot/markdown-to-word` (`src/markdown_to_word.py`).

The Python source is shallowly embedded:
* lines of text are `List Char`;
* the four inline regexes of the formatter (`re.search` over the remaining
  text) are modelled as executable leftmost-match scanning functions;
* the side-effecting docx calls (`doc.add_heading`, `doc.add_paragraph`,
  `doc.add_table`, cell writes, ...) are modelled by an output list of
  `DocUnit` values, and table-cell population by a list of `CellWrite`
  records;
* the configuration machinery (`DEFAULT_CONFIG`, `merge_configs`,
  `load_config`) is modelled over a `Json` tree with insertion-ordered
  association lists, matching Python `dict` semantics.

Recursion that is not structural in the Python (the tokenizer loop over
`remaining_text`, the line loop with its inner table-collection loop, the
recursive config merge) is given explicit fuel so every definition is
kernel-computable; adequacy lemmas show the chosen fuel is irrelevant.
-/

namespace MdWord

/-! ### Inline span tokenizer (markdown_to_word.py lines 1019-1063 and 880-924)

The paragraph path and the list-item path of `convert_markdown_to_docx`
contain the same inline-formatting loop; it is embedded once here. -/

/-- One regex match over the remaining text: start offset, end offset
(exclusive), and the captured visible text.  For links only group 1 (the
link text) is recorded, because the source keeps only `match.group(1)`
and drops the URL. -/
structure RMatch where
  start : Nat
  stop : Nat
  inner : List Char
  deriving Repr, DecidableEq

/-- First index of `l` at which `p` holds. -/
def firstIdx (p : Char → Bool) : List Char → Option Nat
  | [] => none
  | c :: cs => if p c then some 0 else (firstIdx p cs).map (· + 1)

/-- First index `j` of `l` with `l[j] = a` and `l[j+1] = b`. -/
def findAdjPair (a b : Char) : List Char → Option Nat
  | [] => none
  | [_] => none
  | x :: y :: rest =>
      if x = a ∧ y = b then some 0
      else (findAdjPair a b (y :: rest)).map (· + 1)

/-- Anchored match of the bold regex `(\*\*|__)(.*?)(\1)` at the head of
the text: a doubled delimiter, then a lazy body ending at the first later
occurrence of the same doubled delimiter. -/
def boldAt : List Char → Option RMatch
  | x :: y :: rest =>
      if (x = '*' ∧ y = '*') ∨ (x = '_' ∧ y = '_') then
        (findAdjPair x x rest).map (fun j => ⟨0, j + 4, rest.take j⟩)
      else none
  | _ => none

/-- Anchored match of the italic regex `([*_])((?!\1).*?)(\1)` at the head:
a single delimiter whose next character differs from it (the negative
lookahead), then a lazy body ending at the first later occurrence of the
delimiter.  The body is therefore never empty. -/
def italAt : List Char → Option RMatch
  | x :: y :: rest =>
      if (x = '*' ∨ x = '_') ∧ y ≠ x then
        (firstIdx (· = x) rest).map (fun j => ⟨0, j + 3, y :: rest.take j⟩)
      else none
  | _ => none

/-- Anchored match of the inline-code regex `` `(.*?)` `` at the head. -/
def codeAt : List Char → Option RMatch
  | x :: rest =>
      if x = '`' then
        (firstIdx (· = '`') rest).map (fun j => ⟨0, j + 2, rest.take j⟩)
      else none
  | [] => none

/-- Anchored match of the link regex `\[(.*?)\]\((.*?)\)` at the head: the
lazy link text ends at the first `](` pair, the lazy URL at the first `)`
after it.  (If the first `](` pair has no `)` after it, no later pair has
one either, so failing here is faithful to the regex backtracking.) -/
def linkAt : List Char → Option RMatch
  | x :: rest =>
      if x = '[' then
        match findAdjPair ']' '(' rest with
        | some j =>
            match firstIdx (· = ')') (rest.drop (j + 2)) with
            | some r => some ⟨0, j + r + 4, rest.take j⟩
            | none => none
        | none => none
      else none
  | [] => none

/-- Leftmost bold match, as `re.search` finds it. -/
def searchBold : List Char → Option RMatch
  | [] => none
  | c :: cs =>
      match boldAt (c :: cs) with
      | some m => some m
      | none => (searchBold cs).map (fun m => ⟨m.start + 1, m.stop + 1, m.inner⟩)

/-- Leftmost italic match. -/
def searchItal : List Char → Option RMatch
  | [] => none
  | c :: cs =>
      match italAt (c :: cs) with
      | some m => some m
      | none => (searchItal cs).map (fun m => ⟨m.start + 1, m.stop + 1, m.inner⟩)

/-- Leftmost inline-code match. -/
def searchCode : List Char → Option RMatch
  | [] => none
  | c :: cs =>
      match codeAt (c :: cs) with
      | some m => some m
      | none => (searchCode cs).map (fun m => ⟨m.start + 1, m.stop + 1, m.inner⟩)

/-- Leftmost link match. -/
def searchLink : List Char → Option RMatch
  | [] => none
  | c :: cs =>
      match linkAt (c :: cs) with
      | some m => some m
      | none => (searchLink cs).map (fun m => ⟨m.start + 1, m.stop + 1, m.inner⟩)

/-- The four inline-markup kinds, in the order the source lists their
matches: `[(bold_match, 'bold'), (italic_match, 'italic'), (code_match,
'code'), (link_match, 'link')]`. -/
inductive MKind
  | bold
  | italic
  | code
  | link
  deriving Repr, DecidableEq

def searchOf : MKind → List Char → Option RMatch
  | .bold => searchBold
  | .italic => searchItal
  | .code => searchCode
  | .link => searchLink

/-- Position of each kind in the source's candidate list (its tie-break
priority under Python's stable sort). -/
def prio : MKind → Nat
  | .bold => 0
  | .italic => 1
  | .code => 2
  | .link => 3

/-- The list `valid_matches` of the source: the candidates that matched,
in the fixed order bold, italic, code, link. -/
def candidates (s : List Char) : List (MKind × RMatch) :=
  (match searchBold s with | some m => [(MKind.bold, m)] | none => [])
  ++ (match searchItal s with | some m => [(MKind.italic, m)] | none => [])
  ++ (match searchCode s with | some m => [(MKind.code, m)] | none => [])
  ++ (match searchLink s with | some m => [(MKind.link, m)] | none => [])

/-- Selection of `valid_matches.sort(key=start)[0]`: Python's sort is
stable, so the selected candidate is the first one attaining the minimal
start position.  The fold keeps the accumulator on ties. -/
def pickFold (acc : MKind × RMatch) : List (MKind × RMatch) → MKind × RMatch
  | [] => acc
  | z :: zs => pickFold (if z.2.start < acc.2.start then z else acc) zs

/-- The candidate selected by `valid_matches.sort(...); valid_matches[0]`. -/
def chooseMatch (s : List Char) : Option (MKind × RMatch) :=
  match candidates s with
  | [] => none
  | x :: xs => some (pickFold x xs)

/-- One emitted run of `formatted_runs`: the format tag ('normal' is
`plain`) and the run text. -/
inductive Span
  | plain (t : List Char)
  | bold (t : List Char)
  | italic (t : List Char)
  | code (t : List Char)
  | link (t : List Char)
  deriving Repr, DecidableEq

def mkSpan : MKind → List Char → Span
  | .bold, t => .bold t
  | .italic, t => .italic t
  | .code, t => .code t
  | .link, t => .link t

/-- The visible text of a span. -/
def spanText : Span → List Char
  | .plain t => t
  | .bold t => t
  | .italic t => t
  | .code t => t
  | .link t => t

/-- Concatenation of the visible texts of a span sequence. -/
def spanConcat : List Span → List Char
  | [] => []
  | s :: ss => spanText s ++ spanConcat ss

/-- The `while remaining_text:` loop of the source, with fuel.  Each step
either finds no candidate (the rest is emitted as one plain run) or emits
the text before the selected match as a plain run, the match as its typed
run, and continues after the match. -/
def tokenizeAux : Nat → List Char → List Span
  | 0, _ => []
  | _ + 1, [] => []
  | fuel + 1, c :: cs =>
      match chooseMatch (c :: cs) with
      | none => [Span.plain (c :: cs)]
      | some km =>
          (if 0 < km.2.start then [Span.plain ((c :: cs).take km.2.start)] else [])
          ++ mkSpan km.1 km.2.inner :: tokenizeAux fuel ((c :: cs).drop km.2.stop)

/-- Inline tokenization of one line.  Every selected match consumes at
least two characters, so `length + 1` fuel always suffices. -/
def tokenizeInline (s : List Char) : List Span :=
  tokenizeAux (s.length + 1) s

/-! ### Block classifier and renderer (markdown_to_word.py lines 790-1088)

The `while i < len(lines):` loop of `convert_markdown_to_docx` is embedded
as `processAux`; the docx mutations are recorded as `DocUnit` values. -/

/-- Drop the trailing characters satisfying `p` (the right half of
Python's `str.strip`). -/
def dropTrailing (p : Char → Bool) : List Char → List Char
  | [] => []
  | c :: cs =>
      match dropTrailing p cs with
      | [] => if p c then [] else [c]
      | d :: ds => c :: d :: ds

/-- Python's `str.strip(set)`: drop the characters satisfying `p` from
both ends. -/
def stripChars (p : Char → Bool) (l : List Char) : List Char :=
  dropTrailing p (l.dropWhile p)

/-- `line.strip()` — strip whitespace from both ends. -/
def trimChars : List Char → List Char :=
  stripChars Char.isWhitespace

/-- `line.strip('|')`. -/
def stripPipes : List Char → List Char :=
  stripChars (· = '|')

/-- Python's `s.split('|')`: split at every pipe, keeping empty fields;
the empty string yields one empty field. -/
def splitPipe : List Char → List (List Char)
  | [] => [[]]
  | c :: cs =>
      if c = '|' then [] :: splitPipe cs
      else
        match splitPipe cs with
        | [] => [[c]]
        | g :: gs => (c :: g) :: gs

/-- The cell extraction `[cell.strip() for cell in line.strip('|').split('|')]`. -/
def cellsOfLine (l : List Char) : List (List Char) :=
  (splitPipe (stripPipes l)).map trimChars

/-- `line.strip().startswith('|') and line.strip().endswith('|')` — the
table-row test used both to open and to extend a table run. -/
def isTableLine (l : List Char) : Bool :=
  decide ((trimChars l).head? = some '|' ∧ (trimChars l).getLast? = some '|')

/-- `line.strip().startswith('```')` — the code-fence test. -/
def isFence (l : List Char) : Bool :=
  decide ((trimChars l).take 3 = ['`', '`', '`'])

/-- `line.strip()[3:].strip()` — the language tag of an opening fence. -/
def fenceLang (l : List Char) : List Char :=
  trimChars ((trimChars l).drop 3)

/-- The `\s+(.+)$` tail of the heading and list-item regexes, applied to
the text after the prefix: at least one whitespace character, then a
non-empty greedy remainder.  When the text is all whitespace the greedy
`\s+` backtracks one character, so `(.+)` captures the final whitespace
character. -/
def wsplit (r : List Char) : Option (List Char) :=
  match r with
  | [] => none
  | c :: cs =>
      if c.isWhitespace then
        match (c :: cs).dropWhile Char.isWhitespace with
        | [] => if cs.isEmpty then none else some [(c :: cs).getLastD ' ']
        | d :: ds => some (d :: ds)
      else none

/-- `re.match(r'^(#{1,6})\s+(.+)$', line)`: number of leading `#` (1-6)
and `group(2).strip()` (the source strips the title text). -/
def headParse (l : List Char) : Option (Nat × List Char) :=
  let hashes := l.takeWhile (· = '#')
  if 1 ≤ hashes.length ∧ hashes.length ≤ 6 then
    (wsplit (l.drop hashes.length)).map (fun g => (hashes.length, trimChars g))
  else none

/-- `re.match(r'^(\s*)([\*\-\+]|\d+\.)\s+(.+)$', line)`: returns
(ordered?, `len(group(1)) // 2`, `group(3)` unstripped).  The indent level
is the leading-whitespace count integer-divided by 2, as in the source. -/
def listParse (l : List Char) : Option (Bool × Nat × List Char) :=
  let ws := l.takeWhile Char.isWhitespace
  let r := l.dropWhile Char.isWhitespace
  match r with
  | [] => none
  | c :: cs =>
      if c = '*' ∨ c = '-' ∨ c = '+' then
        (wsplit cs).map (fun g => (false, ws.length / 2, g))
      else
        let ds := r.takeWhile Char.isDigit
        if ds.isEmpty then none
        else
          match r.drop ds.length with
          | '.' :: rest => (wsplit rest).map (fun g => (true, ws.length / 2, g))
          | _ => none

/-- `re.match(r'!\[(.*?)\]\((.*?)\)', line)`: anchored at the line start,
trailing text after the closing parenthesis is ignored.  Returns
(alt text, image source). -/
def imgParse (l : List Char) : Option (List Char × List Char) :=
  match l with
  | '!' :: '[' :: rest =>
      match findAdjPair ']' '(' rest with
      | some j =>
          match firstIdx (· = ')') (rest.drop (j + 2)) with
          | some r => some (rest.take j, (rest.drop (j + 2)).take r)
          | none => none
      | none => none
  | _ => none

/-- Python's `enumerate`, starting at `i`. -/
def enumFrom (i : Nat) : List α → List (Nat × α)
  | [] => []
  | x :: xs => (i, x) :: enumFrom (i + 1) xs

/-- Concatenated map over a list. -/
def concatMap (f : α → List β) : List α → List β
  | [] => []
  | x :: xs => f x ++ concatMap f xs

/-- One write into a docx table cell: position, text, and whether the
source made the cell's runs bold and gave the cell the header background
shading (`shade_cell` with the configured `header_bg_color`). -/
structure CellWrite where
  row : Nat
  col : Nat
  text : List Char
  bold : Bool
  shaded : Bool
  deriving Repr, DecidableEq

/-- One output block written into the document, abstracting the docx
calls of `convert_markdown_to_docx`.  `emptyPara` is a bare
`doc.add_paragraph()`; `image` abstracts `add_image_to_doc`, whose
filesystem and network effects are outside the embedded core. -/
inductive DocUnit
  | heading (level : Nat) (text : List Char)
  | codeLabel (language : List Char)
  | codeBlock (text : List Char)
  | emptyPara
  | listItem (ordered : Bool) (level : Nat) (spans : List Span)
  | tableUnit (numRows numCols : Nat) (writes : List CellWrite)
  | image (alt : List Char) (src : List Char)
  | paragraph (spans : List Span)
  deriving Repr, DecidableEq

/-- The table construction of lines 954-997: the first collected line is
the header, the second (separator) line is discarded, the remaining lines
are data rows; the column count is the header's cell count; header cells
are written bold and shaded; data cells are written only when their index
is below the column count (`if col_idx < num_cols`). -/
def mkTable (tl : List (List Char)) : DocUnit :=
  let headerRow := cellsOfLine (tl.headD [])
  let rowsData := (tl.drop 2).map cellsOfLine
  let numCols := headerRow.length
  DocUnit.tableUnit (rowsData.length + 1) numCols
    ((enumFrom 0 headerRow).map (fun jt => ⟨0, jt.1, jt.2, true, true⟩)
      ++ concatMap
          (fun rt =>
            ((enumFrom 0 rt.2).filter (fun ct => decide (ct.1 < numCols))).map
              (fun ct => ⟨rt.1 + 1, ct.1, ct.2, false, false⟩))
          (enumFrom 0 rowsData))

/-- The line loop of `convert_markdown_to_docx` (lines 799-1084), with
fuel.  The second argument is the code-fence state: `none` is `in_code_block
= False`, `some (lang, content)` carries `code_language` and
`code_content`.  Branch order follows the source: fence test, fence
accumulation, heading, list item, table run, image, blank, paragraph.
When the input ends the function returns with the fence content
unflushed, exactly as the source's loop does. -/
def processAux : Nat → Option (List Char × List (List Char)) → List (List Char) → List DocUnit
  | 0, _, _ => []
  | _ + 1, _, [] => []
  | fuel + 1, st, line :: rest =>
      if isFence line then
        match st with
        | none => processAux fuel (some (fenceLang line, [])) rest
        | some lc =>
            (if lc.1.isEmpty then [] else [DocUnit.codeLabel lc.1])
            ++ DocUnit.codeBlock (List.intercalate ['\n'] lc.2) :: DocUnit.emptyPara
            :: processAux fuel none rest
      else
        match st with
        | some lc => processAux fuel (some (lc.1, lc.2 ++ [line])) rest
        | none =>
            match headParse line with
            | some hl => DocUnit.heading hl.1 hl.2 :: processAux fuel none rest
            | none =>
                match listParse line with
                | some li =>
                    DocUnit.listItem li.1 li.2.1 (tokenizeInline li.2.2)
                    :: processAux fuel none rest
                | none =>
                    if isTableLine line then
                      if 3 ≤ (line :: rest.takeWhile isTableLine).length then
                        mkTable (line :: rest.takeWhile isTableLine) :: DocUnit.emptyPara
                        :: processAux fuel none (rest.dropWhile isTableLine)
                      else processAux fuel none (rest.dropWhile isTableLine)
                    else
                      match imgParse line with
                      | some ai => DocUnit.image ai.1 ai.2 :: processAux fuel none rest
                      | none =>
                          if (trimChars line).isEmpty then
                            DocUnit.emptyPara :: processAux fuel none rest
                          else
                            DocUnit.paragraph (tokenizeInline line)
                            :: processAux fuel none rest

/-- Conversion of one file's lines (the body of the per-file loop).  Every
step of the loop consumes at least one line, so `length + 1` fuel always
suffices. -/
def processLines (lines : List (List Char)) : List DocUnit :=
  processAux (lines.length + 1) none lines

/-- Number of emitted code blocks. -/
def countCodeBlocks (us : List DocUnit) : Nat :=
  us.countP (fun u => match u with | DocUnit.codeBlock _ => true | _ => false)

/-! ### Configuration model (markdown_to_word.py lines 21-187)

JSON values as loaded by `json.load`: objects are insertion-ordered
association lists with distinct keys, matching Python `dict` semantics.
Floating-point literals of `DEFAULT_CONFIG` are carried as their literal
text — they are opaque payloads to every operation modelled here. -/

/-- A JSON value, as loaded by `json.load`.  Objects are
insertion-ordered binding lists with distinct keys, matching Python
`dict` semantics; `flt` carries a float literal's text (floats are opaque
payloads to every operation modelled here). -/
inductive Json where
  | str (s : String)
  | num (n : Int)
  | flt (s : String)
  | bool (b : Bool)
  | obj (kvs : List (String × Json))

/-- Short form for object literals. -/
def jobj (l : List (String × Json)) : Json :=
  Json.obj l

mutual
/-- Size of a value, used as merge fuel. -/
def jsize : Json → Nat
  | .obj kvs => 1 + ksize kvs
  | _ => 1
def ksize : List (String × Json) → Nat
  | [] => 1
  | (_, v) :: rest => 1 + jsize v + ksize rest
end

/-- Whether a value is a mapping (`isinstance(value, dict)`). -/
def Json.isObj : Json → Bool
  | .obj _ => true
  | _ => false

/-- `key in d` / `d[key]` for an insertion-ordered dict. -/
def lookupKey : List (String × Json) → String → Option Json
  | [], _ => none
  | kv :: kvs, k => if kv.1 = k then some kv.2 else lookupKey kvs k

/-- `d[key] = v` for a key already present: replace the first binding,
keeping its position. -/
def setKey : List (String × Json) → String → Json → List (String × Json)
  | [], _, _ => []
  | kv :: kvs, k, v => if kv.1 = k then (k, v) :: kvs else kv :: setKey kvs k v

/-- `merge_configs(default_config, user_config)` (lines 175-187), as the
final value of the mutated `default_config`, with fuel: for each override
binding in order, if the key is present in the defaults and both values
are dicts the dicts are merged recursively, otherwise the override value
replaces the present binding or is appended as a new one.  Every
recursive call is on a structurally smaller override, so `ksize` of the
override is adequate fuel. -/
def mergeKVsF : Nat → List (String × Json) → List (String × Json) → List (String × Json)
  | 0, dk, _ => dk
  | _ + 1, dk, [] => dk
  | fuel + 1, dk, (k, v) :: rest =>
      let dk' :=
        match lookupKey dk k, v with
        | some (Json.obj dsub), Json.obj usub => setKey dk k (Json.obj (mergeKVsF fuel dsub usub))
        | some _, _ => setKey dk k v
        | none, _ => dk ++ [(k, v)]
      mergeKVsF fuel dk' rest

/-- `merge_configs` on two dicts. -/
def mergeConfigs (dk uk : List (String × Json)) : List (String × Json) :=
  mergeKVsF (ksize uk) dk uk

/-- The per-binding step of `merge_configs`. -/
def mergeStep (dk : List (String × Json)) (k : String) (v : Json) : List (String × Json) :=
  match lookupKey dk k, v with
  | some (Json.obj dsub), Json.obj usub => setKey dk k (Json.obj (mergeConfigs dsub usub))
  | some _, _ => setKey dk k v
  | none, _ => dk ++ [(k, v)]

/-- What a lookup in the merged configuration should produce, per key: an
override binding replaces the default binding unless both values are
mappings, in which case they merge recursively; keys absent from the
override keep the default binding.  Modelled from the spec's merge rule,
to be compared with `merge_configs`. -/
def mergedLookupSpec (d u : Option Json) : Option Json :=
  match u with
  | none => d
  | some v =>
      match d, v with
      | some (Json.obj ds), Json.obj us => some (Json.obj (mergeConfigs ds us))
      | _, _ => some v

/-- `DEFAULT_CONFIG` (lines 21-147), transcribed. -/
def defaultConfig : List (String × Json) :=
  [("styles", jobj [("h1", jobj [("font_name", .str "Arial"), ("font_size", .num 18), ("bold", .bool true),
           ("color", jobj [("r", .num 0), ("g", .num 51), ("b", .num 102)]),
           ("space_before", .num 24), ("space_after", .num 12),
           ("keep_with_next", .bool true)]),
       ("h2", jobj [("font_name", .str "Arial"), ("font_size", .num 16), ("bold", .bool true),
           ("color", jobj [("r", .num 0), ("g", .num 102), ("b", .num 153)]),
           ("space_before", .num 18), ("space_after", .num 10),
           ("keep_with_next", .bool true)]),
       ("h3", jobj [("font_name", .str "Arial"), ("font_size", .num 14), ("bold", .bool true),
           ("color", jobj [("r", .num 0), ("g", .num 153), ("b", .num 204)]),
           ("space_before", .num 14), ("space_after", .num 8),
           ("keep_with_next", .bool true)]),
       ("h4", jobj [("font_name", .str "Arial"), ("font_size", .num 12), ("bold", .bool true),
           ("color", jobj [("r", .num 0), ("g", .num 153), ("b", .num 204)]),
           ("space_before", .num 12), ("space_after", .num 6),
           ("keep_with_next", .bool true)]),
       ("normal", jobj [("font_name", .str "Times New Roman"), ("font_size", .num 11),
           ("color", jobj [("r", .num 0), ("g", .num 0), ("b", .num 0)]),
           ("space_after", .num 8), ("line_spacing", .flt "1.15")]),
       ("code", jobj [("font_name", .str "Consolas"), ("font_size", .num 10),
           ("color", jobj [("r", .num 128), ("g", .num 0), ("b", .num 128)]),
           ("space_after", .num 8)]),
       ("code_block", jobj [("font_name", .str "Consolas"), ("font_size", .num 10),
           ("color", jobj [("r", .num 0), ("g", .num 0), ("b", .num 0)]),
           ("background", jobj [("r", .num 245), ("g", .num 245), ("b", .num 245)]),
           ("space_before", .num 8), ("space_after", .num 8)]),
       ("list_item", jobj [("font_name", .str "Times New Roman"), ("font_size", .num 11),
           ("color", jobj [("r", .num 0), ("g", .num 0), ("b", .num 0)]),
           ("space_after", .num 0), ("left_indent", .flt "0.5")]),
       ("table", jobj [("font_name", .str "Times New Roman"), ("font_size", .num 10),
           ("header_bg_color", jobj [("r", .num 240), ("g", .num 240), ("b", .num 240)]),
           ("border_color", jobj [("r", .num 0), ("g", .num 0), ("b", .num 0)]),
           ("space_before", .num 12), ("space_after", .num 12)]),
       ("caption", jobj [("font_name", .str "Times New Roman"), ("font_size", .num 10),
           ("italic", .bool true),
           ("color", jobj [("r", .num 80), ("g", .num 80), ("b", .num 80)]),
           ("space_before", .num 6), ("space_after", .num 12),
           ("alignment", .str "center")]),
       ("toc_heading", jobj [("font_name", .str "Arial"), ("font_size", .num 16), ("bold", .bool true),
           ("color", jobj [("r", .num 0), ("g", .num 0), ("b", .num 0)]),
           ("space_before", .num 24), ("space_after", .num 12)]),
       ("toc_item", jobj [("font_name", .str "Times New Roman"), ("font_size", .num 11),
           ("color", jobj [("r", .num 0), ("g", .num 0), ("b", .num 0)]),
           ("space_after", .num 3)])]),
   ("document", jobj [("add_file_headers", .bool true), ("page_break_between_files", .bool true),
       ("margins", jobj [("top", .flt "2.5"), ("bottom", .flt "2.5"),
           ("left", .flt "2.5"), ("right", .flt "2.5")]),
       ("page_size", jobj [("width", .flt "21.0"), ("height", .flt "29.7")]),
       ("orientation", .str "portrait"), ("generate_toc", .bool true),
       ("toc_title", .str "Table des matières"),
       ("header", jobj [("enabled", .bool true), ("content", .str "{chapter}"),
           ("first_page_different", .bool true)]),
       ("footer", jobj [("enabled", .bool true), ("content", .str "Page {page}"),
           ("first_page_different", .bool true)]),
       ("image_max_width", .num 15)])]


/-- Effect of `load_config` on the global `DEFAULT_CONFIG` (lines
149-173).  `config = DEFAULT_CONFIG.copy()` is a *shallow* copy: the new
top-level dict holds the same nested dict objects.  A top-level
assignment `config[key] = value` in `merge_configs` therefore leaves the
defaults untouched, but when both `config[key]` and the override value
are dicts the recursive call mutates the shared nested dict in place.
This function returns the value of `DEFAULT_CONFIG` after
`load_config` parsed the given override. -/
def defaultsAfterLoad : List (String × Json) → List (String × Json) → List (String × Json)
  | dk, [] => dk
  | dk, (k, v) :: rest =>
      let dk' :=
        match lookupKey dk k, v with
        | some (Json.obj dsub), Json.obj usub => setKey dk k (Json.obj (mergeConfigs dsub usub))
        | _, _ => dk
      defaultsAfterLoad dk' rest

/-- The possible override inputs of `load_config`: no path given, a path
that does not exist, a file whose contents `json.load` cannot parse, a
file parsing to a non-dict value (then `user_config.items()` raises and
is caught), or a parsed dict. -/
inductive OverrideInput where
  | noPath
  | missing
  | unparsable
  | parsedOther
  | parsedObj (uk : List (String × Json))

/-- `load_config(config_file)` (lines 149-173), as the returned
configuration value together with whether the warning branch (the
`except` handler's prints) ran.  A missing file is skipped silently by
`if config_file and os.path.exists(config_file)`; a parse failure (or a
non-dict document) is caught, warned about, and the defaults are
returned.  The model is a total function: the source's `try/except`
catches every exception of the load-and-merge block. -/
def loadConfig : OverrideInput → List (String × Json) × Bool
  | .noPath => (defaultConfig, false)
  | .missing => (defaultConfig, false)
  | .unparsable => (defaultConfig, true)
  | .parsedOther => (defaultConfig, true)
  | .parsedObj uk => (mergeConfigs defaultConfig uk, false)

/-- Lookup along a path of keys in a configuration tree. -/
def lookupPath : List (String × Json) → List String → Option Json
  | kvs, [] => some (Json.obj kvs)
  | kvs, k :: rest =>
      match lookupKey kvs k, rest with
      | some v, [] => some v
      | some (Json.obj sub), _ :: _ => lookupPath sub rest
      | _, _ => none

/-! ### Specification-side definitions

These definitions follow the spec's wording; the theorems below compare
them with the embedded source functions. -/

/-- Characters that can take part in an inline-markup delimiter. -/
def isSpecial (c : Char) : Bool :=
  c = '*' || c = '_' || c = '`' || c = '[' || c = ']' || c = '(' || c = ')'

/-- Text free of markup-delimiter characters. -/
def plainOK (l : List Char) : Bool :=
  l.all (fun c => !(isSpecial c))

/-- One well-formed inline span, as described by the spec: bold and italic
with either delimiter flavour, inline code, or a link with text and URL. -/
inductive Seg where
  | bold (us : Bool) (t : List Char)
  | italic (us : Bool) (t : List Char)
  | code (t : List Char)
  | link (t : List Char) (u : List Char)

/-- The markup kind of a segment. -/
def segKind : Seg → MKind
  | .bold _ _ => .bold
  | .italic _ _ => .italic
  | .code _ => .code
  | .link _ _ => .link

/-- The visible text of a segment. -/
def segText : Seg → List Char
  | .bold _ t => t
  | .italic _ t => t
  | .code t => t
  | .link t _ => t

/-- A segment's written form, with its markup delimiters. -/
def renderSeg : Seg → List Char
  | .bold us t =>
      let d := if us then '_' else '*'
      d :: d :: (t ++ [d, d])
  | .italic us t =>
      let d := if us then '_' else '*'
      d :: (t ++ [d])
  | .code t => '`' :: (t ++ ['`'])
  | .link t u => '[' :: (t ++ ']' :: '(' :: (u ++ [')']))

/-- A segment is well formed when its visible text is non-empty and free
of delimiter characters, and a link URL is free of them too. -/
def segOK : Seg → Bool
  | .bold _ t => !t.isEmpty && plainOK t
  | .italic _ t => !t.isEmpty && plainOK t
  | .code t => !t.isEmpty && plainOK t
  | .link t u => !t.isEmpty && plainOK t && plainOK u

/-- A line tail: segments each followed by plain filler text. -/
def renderTail : List (Seg × List Char) → List Char
  | [] => []
  | (sg, p) :: rest => renderSeg sg ++ p ++ renderTail rest

/-- A full line: leading plain text, then the rendered tail. -/
def renderLine (p0 : List Char) (segs : List (Seg × List Char)) : List Char :=
  p0 ++ renderTail segs

/-- Well-formedness of a line tail: every segment well formed, every
filler free of delimiter characters. -/
def lineOK (segs : List (Seg × List Char)) : Bool :=
  segs.all (fun sp => segOK sp.1 && plainOK sp.2)

/-- The spans the tokenizer should emit for a line tail: each segment as
its typed span, each non-empty filler as a plain span, in order. -/
def expSpans : List (Seg × List Char) → List Span
  | [] => []
  | (sg, p) :: rest =>
      mkSpan (segKind sg) (segText sg)
      :: (if p.isEmpty then expSpans rest else Span.plain p :: expSpans rest)

/-- The line with all markup delimiters removed (for a link the visible
text is the link text; the source drops the URL). -/
def visText (p0 : List Char) : List (Seg × List Char) → List Char
  | [] => p0
  | (sg, p) :: rest => p0 ++ segText sg ++ visText p rest

/-- The header-row writes the spec requires: row 0, one column per header
cell, bold with the header background fill. -/
def headerWritesSpec (hdr : List (List Char)) : List CellWrite :=
  (enumFrom 0 hdr).map (fun jt => ⟨0, jt.1, jt.2, true, true⟩)

/-- The data-row writes the spec requires: one grid row per data line,
cells beyond the header's column count discarded. -/
def dataWritesSpec (nc : Nat) (rows : List (List (List Char))) : List CellWrite :=
  concatMap
    (fun rt => (enumFrom 0 (rt.2.take nc)).map (fun ct => ⟨rt.1 + 1, ct.1, ct.2, false, false⟩))
    (enumFrom 0 rows)

/-- The override used to exhibit the shared-state mutation of
`load_config`: `{"styles": {"h1": {"font_size": 99}}}`. -/
def mutOverride : List (String × Json) :=
  [("styles", jobj [("h1", jobj [("font_size", Json.num 99)])])]

/-! ### Lemmas about the configuration merge -/

theorem ksize_pos : ∀ kvs : List (String × Json), 1 ≤ ksize kvs
  | [] => le_refl 1
  | (_, _) :: _ => by simp only [ksize]; omega

theorem jsize_pos : ∀ v : Json, 1 ≤ jsize v
  | .str _ => le_refl 1
  | .num _ => le_refl 1
  | .flt _ => le_refl 1
  | .bool _ => le_refl 1
  | .obj _ => by simp only [jsize]; omega

/-- The merge result does not depend on the fuel, once the fuel covers
the override's size. -/
theorem mergeKVsF_congr : ∀ (f g : Nat) (dk uk : List (String × Json)),
    ksize uk ≤ f → ksize uk ≤ g → mergeKVsF f dk uk = mergeKVsF g dk uk := by
  intro f
  induction f with
  | zero => intro g dk uk hf _; exact absurd hf (by have := ksize_pos uk; omega)
  | succ f ih =>
      intro g dk uk hf hg
      cases g with
      | zero => exact absurd hg (by have := ksize_pos uk; omega)
      | succ g =>
          cases uk with
          | nil => simp [mergeKVsF]
          | cons kv rest =>
              obtain ⟨k, v⟩ := kv
              have hrest : ksize rest ≤ f ∧ ksize rest ≤ g := by
                simp only [ksize] at hf hg; have := jsize_pos v; omega
              simp only [mergeKVsF]
              cases hdv : lookupKey dk k with
              | none => exact ih g (dk ++ [(k, v)]) rest hrest.1 hrest.2
              | some dv =>
                  cases dv with
                  | obj dsub =>
                      cases v with
                      | obj usub =>
                          have husub : ksize usub ≤ f ∧ ksize usub ≤ g := by
                            simp only [ksize, jsize] at hf hg
                            have := ksize_pos rest; omega
                          dsimp only
                          rw [ih g dsub usub husub.1 husub.2]
                          exact ih g _ rest hrest.1 hrest.2
                      | str s => exact ih g _ rest hrest.1 hrest.2
                      | num n => exact ih g _ rest hrest.1 hrest.2
                      | flt s => exact ih g _ rest hrest.1 hrest.2
                      | bool b => exact ih g _ rest hrest.1 hrest.2
                  | str s => cases v <;> exact ih g _ rest hrest.1 hrest.2
                  | num n => cases v <;> exact ih g _ rest hrest.1 hrest.2
                  | flt s => cases v <;> exact ih g _ rest hrest.1 hrest.2
                  | bool b => cases v <;> exact ih g _ rest hrest.1 hrest.2

theorem mergeConfigs_nil (dk : List (String × Json)) : mergeConfigs dk [] = dk := rfl

theorem mergeConfigs_cons (dk : List (String × Json)) (k : String) (v : Json)
    (rest : List (String × Json)) :
    mergeConfigs dk ((k, v) :: rest) = mergeConfigs (mergeStep dk k v) rest := by
  have hv := jsize_pos v
  have hr := ksize_pos rest
  have hm : ksize ((k, v) :: rest) = (jsize v + ksize rest) + 1 := by
    simp only [ksize]; omega
  unfold mergeConfigs
  rw [hm]
  simp only [mergeKVsF]
  cases hdv : lookupKey dk k with
  | none =>
      simp only [mergeStep, hdv]
      exact mergeKVsF_congr _ _ _ _ (by omega) (le_refl _)
  | some dv =>
      cases dv with
      | obj dsub =>
          cases v with
          | obj usub =>
              simp only [mergeStep, hdv]
              have hu : ksize usub ≤ jsize (Json.obj usub) + ksize rest := by
                simp only [jsize]; omega
              rw [mergeKVsF_congr (jsize (Json.obj usub) + ksize rest) (ksize usub)
                    dsub usub hu (le_refl _)]
              unfold mergeConfigs
              exact mergeKVsF_congr _ _ _ _ (by omega) (le_refl _)
          | str s =>
              simp only [mergeStep, hdv]
              exact mergeKVsF_congr _ _ _ _ (by omega) (le_refl _)
          | num n =>
              simp only [mergeStep, hdv]
              exact mergeKVsF_congr _ _ _ _ (by omega) (le_refl _)
          | flt s =>
              simp only [mergeStep, hdv]
              exact mergeKVsF_congr _ _ _ _ (by omega) (le_refl _)
          | bool b =>
              simp only [mergeStep, hdv]
              exact mergeKVsF_congr _ _ _ _ (by omega) (le_refl _)
      | str s =>
          cases v <;> simp only [mergeStep, hdv] <;>
            exact mergeKVsF_congr _ _ _ _ (by omega) (le_refl _)
      | num n =>
          cases v <;> simp only [mergeStep, hdv] <;>
            exact mergeKVsF_congr _ _ _ _ (by omega) (le_refl _)
      | flt s =>
          cases v <;> simp only [mergeStep, hdv] <;>
            exact mergeKVsF_congr _ _ _ _ (by omega) (le_refl _)
      | bool b =>
          cases v <;> simp only [mergeStep, hdv] <;>
            exact mergeKVsF_congr _ _ _ _ (by omega) (le_refl _)

theorem lookupKey_setKey_self {dk : List (String × Json)} {k : String} {w : Json} (v : Json)
    (h : lookupKey dk k = some w) : lookupKey (setKey dk k v) k = some v := by
  induction dk with
  | nil => simp [lookupKey] at h
  | cons kv rest ih =>
      by_cases hk : kv.1 = k
      · simp [setKey, hk, lookupKey]
      · simp only [lookupKey, if_neg hk] at h
        simp [setKey, lookupKey, hk, ih h]

theorem lookupKey_setKey_ne {k k' : String} (dk : List (String × Json)) (v : Json)
    (h : k' ≠ k) : lookupKey (setKey dk k v) k' = lookupKey dk k' := by
  induction dk with
  | nil => simp [setKey]
  | cons kv rest ih =>
      have hne : ¬(k = k') := fun hh => h hh.symm
      by_cases hk : kv.1 = k
      · simp [setKey, hk, lookupKey, hne]
      · simp [setKey, lookupKey, hk, ih]

theorem lookupKey_append_self {dk : List (String × Json)} {k : String} (v : Json)
    (h : lookupKey dk k = none) : lookupKey (dk ++ [(k, v)]) k = some v := by
  induction dk with
  | nil => simp [lookupKey]
  | cons kv rest ih =>
      by_cases hk : kv.1 = k
      · simp [lookupKey, hk] at h
      · simp only [lookupKey, if_neg hk] at h
        simp [lookupKey, hk, ih h]

theorem lookupKey_append_ne {k k' : String} (dk : List (String × Json)) (v : Json)
    (h : k' ≠ k) : lookupKey (dk ++ [(k, v)]) k' = lookupKey dk k' := by
  have hne : ¬(k = k') := fun hh => h hh.symm
  induction dk with
  | nil => simp [lookupKey, hne]
  | cons kv rest ih => simp [lookupKey, ih]

theorem lookupKey_mergeStep_ne {k k' : String} (dk : List (String × Json)) (v : Json)
    (h : k' ≠ k) : lookupKey (mergeStep dk k v) k' = lookupKey dk k' := by
  unfold mergeStep
  cases hdv : lookupKey dk k with
  | none => exact lookupKey_append_ne dk v h
  | some dv => cases dv <;> cases v <;> exact lookupKey_setKey_ne dk _ h

theorem lookupKey_of_not_mem_keys {uk : List (String × Json)} {k : String}
    (h : k ∉ uk.map Prod.fst) : lookupKey uk k = none := by
  induction uk with
  | nil => rfl
  | cons kv rest ih =>
      simp only [List.map_cons, List.mem_cons, not_or] at h
      have hne : ¬(kv.1 = k) := fun hh => h.1 hh.symm
      simp [lookupKey, hne, ih h.2]

/-- Per-key characterisation of `merge_configs`, for override objects
with distinct keys (as produced by `json.load`). -/
theorem mergeConfigs_lookup :
    ∀ (uk dk : List (String × Json)) (k : String), (uk.map Prod.fst).Nodup →
      lookupKey (mergeConfigs dk uk) k
        = mergedLookupSpec (lookupKey dk k) (lookupKey uk k) := by
  intro uk
  induction uk with
  | nil => intro dk k _; rfl
  | cons kv rest ih =>
      intro dk k hnd
      obtain ⟨k0, v0⟩ := kv
      simp only [List.map_cons, List.nodup_cons] at hnd
      rw [mergeConfigs_cons, ih _ k hnd.2]
      by_cases hk : k = k0
      · subst hk
        rw [lookupKey_of_not_mem_keys hnd.1]
        simp only [mergedLookupSpec, lookupKey, if_pos rfl]
        unfold mergeStep
        cases hdv : lookupKey dk k with
        | none => simp [lookupKey_append_self v0 hdv]
        | some dv => cases dv <;> cases v0 <;> simp [lookupKey_setKey_self _ hdv]
      · have h1 : lookupKey (mergeStep dk k0 v0) k = lookupKey dk k :=
          lookupKey_mergeStep_ne dk v0 hk
        have h2 : lookupKey ((k0, v0) :: rest) k = lookupKey rest k := by
          have hne : ¬(k0 = k) := fun hh => hk hh.symm
          simp [lookupKey, hne]
        rw [h1, h2]

/-! ### Lemmas about the line loop -/

theorem length_dropWhile_le (p : List Char → Bool) :
    ∀ l : List (List Char), (l.dropWhile p).length ≤ l.length := by
  intro l
  induction l with
  | nil => simp
  | cons x xs ih =>
      by_cases hx : p x
      · simp only [List.dropWhile_cons, hx, if_true]
        exact le_trans ih (by simp)
      · simp [List.dropWhile_cons, hx]

/-- Once the loop is inside a code fence, input with no further fence
line produces no output at all: the accumulated content is dropped when
the lines run out. -/
theorem processAux_fence_discard :
    ∀ (ls : List (List Char)) (fuel : Nat) (lang : List Char) (acc : List (List Char)),
      (∀ l ∈ ls, isFence l = false) →
      processAux fuel (some (lang, acc)) ls = [] := by
  intro ls
  induction ls with
  | nil => intro fuel lang acc _; cases fuel <;> rfl
  | cons line rest ih =>
      intro fuel lang acc h
      cases fuel with
      | zero => rfl
      | succ f =>
          have hline : isFence line = false := h line (by simp)
          simp only [processAux, hline, Bool.false_eq_true, if_false]
          exact ih f lang (acc ++ [line]) (fun l hl => h l (by simp [hl]))

/-- The loop's result does not depend on the fuel, once the fuel exceeds
the number of lines: every step consumes at least one line. -/
theorem processAux_congr :
    ∀ (n : Nat) (lines : List (List Char)) (st : Option (List Char × List (List Char)))
      (f₁ f₂ : Nat), lines.length < f₁ → lines.length < f₂ → lines.length ≤ n →
      processAux f₁ st lines = processAux f₂ st lines := by
  intro n
  induction n with
  | zero =>
      intro lines st f₁ f₂ h1 h2 hn
      have hl : lines = [] := List.length_eq_zero.mp (by omega)
      subst hl
      cases f₁ with
      | zero => omega
      | succ g₁ => cases f₂ with
          | zero => omega
          | succ g₂ => rfl
  | succ n ih =>
      intro lines st f₁ f₂ h1 h2 hn
      cases lines with
      | nil =>
          cases f₁ with
          | zero => omega
          | succ g₁ => cases f₂ with
              | zero => omega
              | succ g₂ => rfl
      | cons line rest =>
          cases f₁ with
          | zero => omega
          | succ g₁ =>
            cases f₂ with
            | zero => omega
            | succ g₂ =>
              have hr1 : rest.length < g₁ := by simp at h1; omega
              have hr2 : rest.length < g₂ := by simp at h2; omega
              have hrn : rest.length ≤ n := by simp at hn; omega
              have hd1 : (rest.dropWhile isTableLine).length < g₁ :=
                lt_of_le_of_lt (length_dropWhile_le _ rest) hr1
              have hd2 : (rest.dropWhile isTableLine).length < g₂ :=
                lt_of_le_of_lt (length_dropWhile_le _ rest) hr2
              have hdn : (rest.dropWhile isTableLine).length ≤ n :=
                le_trans (length_dropWhile_le _ rest) hrn
              simp only [processAux]
              by_cases hf : isFence line
              · simp only [hf, if_true]
                cases st with
                | none => exact ih rest _ g₁ g₂ hr1 hr2 hrn
                | some lc => simp only [ih rest _ g₁ g₂ hr1 hr2 hrn]
              · simp only [hf, Bool.false_eq_true, if_false]
                cases st with
                | some lc => exact ih rest _ g₁ g₂ hr1 hr2 hrn
                | none =>
                  cases hh : headParse line with
                  | some hl => simp only [ih rest _ g₁ g₂ hr1 hr2 hrn]
                  | none =>
                    cases hli : listParse line with
                    | some li => simp only [ih rest _ g₁ g₂ hr1 hr2 hrn]
                    | none =>
                      by_cases ht : isTableLine line
                      · simp only [ht, if_true]
                        by_cases hlen : 3 ≤ (line :: rest.takeWhile isTableLine).length
                        · simp only [hlen, if_true]
                          simp only [ih (rest.dropWhile isTableLine) _ g₁ g₂ hd1 hd2 hdn]
                        · simp only [hlen, if_false]
                          exact ih (rest.dropWhile isTableLine) _ g₁ g₂ hd1 hd2 hdn
                      · simp only [ht, Bool.false_eq_true, if_false]
                        cases hi : imgParse line with
                        | some ai => simp only [ih rest _ g₁ g₂ hr1 hr2 hrn]
                        | none =>
                          by_cases hb : (trimChars line).isEmpty
                          · simp only [hb, if_true]
                            simp only [ih rest _ g₁ g₂ hr1 hr2 hrn]
                          · simp only [hb, Bool.false_eq_true, if_false]
                            simp only [ih rest _ g₁ g₂ hr1 hr2 hrn]

/-- A run of lines satisfying `p` followed by input whose first line does
not satisfy `p` splits as expected under `takeWhile` and `dropWhile`. -/
theorem takeWhile_dropWhile_append (p : List Char → Bool) :
    ∀ (xs ys : List (List Char)), (∀ x ∈ xs, p x = true) →
      (∀ y, ys.head? = some y → p y = false) →
      (xs ++ ys).takeWhile p = xs ∧ (xs ++ ys).dropWhile p = ys := by
  intro xs
  induction xs with
  | nil =>
      intro ys _ hy
      cases ys with
      | nil => exact ⟨rfl, rfl⟩
      | cons y ys' =>
          have := hy y rfl
          simp [List.takeWhile_cons, List.dropWhile_cons, this]
  | cons x xs' ih =>
      intro ys hx hy
      have hxx : p x = true := hx x (by simp)
      have hrest := ih ys (fun z hz => hx z (by simp [hz])) hy
      simp [List.takeWhile_cons, List.dropWhile_cons, hxx, hrest.1, hrest.2]

/-! ### Classification facts about pipe-delimited lines -/

theorem dropTrailing_head (p : Char → Bool) :
    ∀ (r : List Char) (c : Char) (rest' : List Char),
      dropTrailing p r = c :: rest' → r.head? = some c := by
  intro r
  induction r with
  | nil => intro c rest' h; simp [dropTrailing] at h
  | cons x xs ih =>
      intro c rest' h
      simp only [dropTrailing] at h
      cases hxs : dropTrailing p xs with
      | nil =>
          rw [hxs] at h
          by_cases hp : p x
          · simp [hp] at h
          · simp [hp] at h
            simp [h.1]
      | cons d ds =>
          rw [hxs] at h
          simp at h
          simp [h.1]

theorem trimChars_head {l : List Char} {c : Char} (h : (trimChars l).head? = some c) :
    (l.dropWhile Char.isWhitespace).head? = some c := by
  unfold trimChars stripChars at h
  cases ht : dropTrailing Char.isWhitespace (l.dropWhile Char.isWhitespace) with
  | nil => rw [ht] at h; simp at h
  | cons d ds =>
      rw [ht] at h
      simp at h
      rw [h] at ht
      exact dropTrailing_head _ _ _ _ ht

theorem trimChars_head_of_head {c : Char} {l : List Char} (hc : c.isWhitespace = false) :
    (trimChars (c :: l)).head? = some c := by
  unfold trimChars stripChars
  rw [List.dropWhile_cons, hc]
  simp only [dropTrailing]
  cases dropTrailing Char.isWhitespace l with
  | nil => simp [hc]
  | cons d ds => rfl

theorem isTableLine_head {l : List Char} (h : isTableLine l = true) :
    (trimChars l).head? = some '|' := by
  unfold isTableLine at h
  exact (of_decide_eq_true h).1

theorem isTableLine_not_fence {l : List Char} (h : isTableLine l = true) :
    isFence l = false := by
  by_contra hf
  have hf' : isFence l = true := by revert hf; cases isFence l <;> simp
  unfold isFence at hf'
  have h3 := of_decide_eq_true hf'
  have hp := isTableLine_head h
  cases htr : trimChars l with
  | nil => rw [htr] at h3; simp at h3
  | cons c cs =>
      rw [htr] at h3 hp
      simp at hp
      simp [List.take_cons] at h3
      rw [hp] at h3
      simp at h3

theorem headParse_none_of_table {l : List Char} (h : isTableLine l = true) :
    headParse l = none := by
  cases hh : headParse l with
  | none => rfl
  | some hl =>
      exfalso
      unfold headParse at hh
      by_cases hc : 1 ≤ (l.takeWhile (· = '#')).length ∧ (l.takeWhile (· = '#')).length ≤ 6
      · have hhead : l.head? = some '#' := by
          cases l with
          | nil => simp [List.takeWhile_nil] at hc
          | cons c cs =>
              by_cases hc' : c = '#'
              · simp [hc']
              · simp [List.takeWhile_cons, hc'] at hc
        cases l with
        | nil => simp at hhead
        | cons c cs =>
            simp at hhead
            subst hhead
            have := trimChars_head_of_head (l := cs) (c := '#') (by decide)
            have hp := isTableLine_head h
            rw [this] at hp
            simp at hp
      · simp [if_neg hc] at hh

theorem listParse_none_of_table {l : List Char} (h : isTableLine l = true) :
    listParse l = none := by
  have hp := isTableLine_head h
  have hr := trimChars_head hp
  unfold listParse
  cases hdw : l.dropWhile Char.isWhitespace with
  | nil => rfl
  | cons c cs =>
      rw [hdw] at hr
      simp at hr
      subst hr
      simp only [hdw]
      have hm : ¬('|' = '*' ∨ '|' = '-' ∨ '|' = '+') := by decide
      rw [if_neg hm]
      have hd : (('|' :: cs).takeWhile Char.isDigit) = [] := by
        simp [List.takeWhile_cons]
      simp [hd]

/-! ### Claims C1 and C2 -/

/-- C1 counterexample: the input consisting of an opening fence followed
by one content line ends inside the open fence; the claim requires
exactly one emitted code block containing the accumulated line, but the
conversion emits no code block at all. -/
theorem c1_counterexample :
    countCodeBlocks (processLines [['`', '`', '`'], ['x']]) = 0 := rfl

/-- C1 (amended): when the input ends while a code fence is still open,
the conversion emits nothing for the fence: the opening line and all
lines accumulated after it are discarded at end of input, producing no
code block (the loop exits with `in_code_block` still true and the
accumulated content is never flushed). -/
theorem c1_unterminated_fence_discards (l : List Char) (ls : List (List Char))
    (hl : isFence l = true) (hls : ∀ x ∈ ls, isFence x = false) :
    processLines (l :: ls) = [] := by
  simp only [processLines, processAux, hl, if_true]
  exact processAux_fence_discard ls _ _ _ hls

theorem c1_witness : processLines [['`', '`', '`', 'p'], ['x'], ['y']] = [] :=
  c1_unterminated_fence_discards ['`', '`', '`', 'p'] [['x'], ['y']]
    (by decide) (by decide)

/-- C2 counterexample: the single line `|A|` starts and ends with a pipe,
so the claim requires it to be rendered as paragraph text, but the
conversion advances past the collected run and emits nothing at all. -/
theorem c2_counterexample : processLines [['|', 'A', '|']] = [] := rfl

/-- C2 (amended): a contiguous run of fewer than 3 pipe-delimited lines
is not classified as a table, and its lines are not processed by the
paragraph path either: the inner collection loop has already advanced
past them, so they are silently dropped from the output. -/
theorem c2_short_pipe_run_dropped (run rest : List (List Char))
    (hall : ∀ l ∈ run, isTableLine l = true) (hlen : run.length < 3)
    (hrest : ∀ l, rest.head? = some l → isTableLine l = false) :
    processLines (run ++ rest) = processLines rest := by
  cases run with
  | nil => rfl
  | cons line rtail =>
      have hline : isTableLine line = true := hall line (by simp)
      have hsplit := takeWhile_dropWhile_append isTableLine rtail rest
        (fun x hx => hall x (by simp [hx])) hrest
      simp only [processLines, List.cons_append, processAux,
        isTableLine_not_fence hline, Bool.false_eq_true, if_false,
        headParse_none_of_table hline, listParse_none_of_table hline,
        hline, if_true, List.append_eq, hsplit.1, hsplit.2]
      have hlen' : ¬(3 ≤ (line :: rtail).length) := by
        simp at hlen ⊢; omega
      rw [if_neg hlen']
      exact processAux_congr ((line :: rtail ++ rest).length) rest none _ _
        (by simp; omega) (by omega) (by simp; omega)

theorem c2_witness :
    processLines ([['|', 'A', '|'], ['|', 'B', '|']] ++ [['x']]) = processLines [['x']] :=
  c2_short_pipe_run_dropped [['|', 'A', '|'], ['|', 'B', '|']] [['x']]
    (by decide) (by decide)
    (by intro l hl; cases hl; decide)

/-! ### Claims C6 and C10 -/

theorem mem_concatMap {f : α → List β} {w : β} :
    ∀ {l : List α}, w ∈ concatMap f l → ∃ x ∈ l, w ∈ f x := by
  intro l
  induction l with
  | nil => intro h; simp [concatMap] at h
  | cons x xs ih =>
      intro h
      simp only [concatMap, List.mem_append] at h
      cases h with
      | inl h => exact ⟨x, by simp, h⟩
      | inr h =>
          obtain ⟨y, hy, hw⟩ := ih h
          exact ⟨y, by simp [hy], hw⟩

theorem concatMap_congr {f g : α → List β} (h : ∀ x, f x = g x) :
    ∀ l : List α, concatMap f l = concatMap g l := by
  intro l
  induction l with
  | nil => rfl
  | cons x xs ih => simp [concatMap, h x, ih]

theorem mem_enumFrom_fst {p : Nat × α} :
    ∀ (l : List α) (k : Nat), p ∈ enumFrom k l → k ≤ p.1 ∧ p.1 < k + l.length := by
  intro l
  induction l with
  | nil => intro k h; simp [enumFrom] at h
  | cons x xs ih =>
      intro k h
      simp only [enumFrom, List.mem_cons] at h
      cases h with
      | inl h => subst h; simp
      | inr h =>
          have := ih (k + 1) h
          simp only [List.length_cons]
          omega

theorem enumFrom_filter_drop {m : Nat} :
    ∀ (l : List α) (k : Nat), m ≤ k →
      (enumFrom k l).filter (fun p => decide (p.1 < m)) = [] := by
  intro l
  induction l with
  | nil => intro k _; rfl
  | cons x xs ih =>
      intro k hk
      have hnot : ¬(k < m) := by omega
      simp only [enumFrom, List.filter_cons, decide_eq_true_eq, hnot, if_false]
      exact ih (k + 1) (by omega)

theorem enumFrom_filter_take :
    ∀ (row : List α) (k n m : Nat), k + n = m →
      (enumFrom k row).filter (fun p => decide (p.1 < m)) = enumFrom k (row.take n) := by
  intro row
  induction row with
  | nil => intro k n m _; simp [enumFrom]
  | cons x xs ih =>
      intro k n m hm
      cases n with
      | zero =>
          have : m ≤ k := by omega
          rw [enumFrom_filter_drop _ _ this]
          simp [enumFrom]
      | succ n' =>
          have hk : k < m := by omega
          simp only [enumFrom, List.filter_cons, decide_eq_true_eq, hk, if_true,
            List.take_succ_cons]
          rw [ih (k + 1) n' m (by omega)]

theorem mem_headerWritesSpec {hdr : List (List Char)} {w : CellWrite}
    (h : w ∈ headerWritesSpec hdr) : w.row = 0 ∧ w.col < hdr.length := by
  unfold headerWritesSpec at h
  obtain ⟨jt, hjt, hw⟩ := List.mem_map.mp h
  have := mem_enumFrom_fst hdr 0 hjt
  subst hw
  simpa using this

theorem mem_dataWritesSpec {nc : Nat} {rows : List (List (List Char))} {w : CellWrite}
    (h : w ∈ dataWritesSpec nc rows) :
    1 ≤ w.row ∧ w.row < rows.length + 1 ∧ w.col < nc := by
  unfold dataWritesSpec at h
  obtain ⟨rt, hrt, hw⟩ := mem_concatMap h
  obtain ⟨ct, hct, hcw⟩ := List.mem_map.mp hw
  have h1 := mem_enumFrom_fst rows 0 hrt
  have h2 := mem_enumFrom_fst (rt.2.take nc) 0 hct
  have h3 : (rt.2.take nc).length ≤ nc := by
    simp [List.length_take]
  subst hcw
  simp only []
  omega

/-- The writes of `mkTable` match the spec-side writes: header writes
plus data writes truncated to the header's column count. -/
theorem mkTable_writes (tl : List (List Char)) :
    mkTable tl = DocUnit.tableUnit ((tl.drop 2).length + 1) (cellsOfLine (tl.headD [])).length
      (headerWritesSpec (cellsOfLine (tl.headD []))
        ++ dataWritesSpec (cellsOfLine (tl.headD [])).length ((tl.drop 2).map cellsOfLine)) := by
  unfold mkTable headerWritesSpec dataWritesSpec
  simp only [List.length_map]
  congr 1
  congr 1
  apply concatMap_congr
  intro rt
  rw [enumFrom_filter_take rt.2 0 (cellsOfLine (tl.headD [])).length
        (cellsOfLine (tl.headD [])).length (by omega)]

/-- C6: a run of at least 3 pipe-delimited lines is classified as one
table followed by a spacing paragraph; the second (separator) line is
discarded, the first line's cells form the header row written bold with
the header background fill, and every remaining line yields one data
row whose cells are the pipe-split, trimmed fields. -/
theorem c6_table_classification (run rest : List (List Char))
    (hall : ∀ l ∈ run, isTableLine l = true) (hlen : 3 ≤ run.length)
    (hrest : ∀ l, rest.head? = some l → isTableLine l = false) :
    processLines (run ++ rest) = mkTable run :: DocUnit.emptyPara :: processLines rest
    ∧ mkTable run = DocUnit.tableUnit (run.length - 1) (cellsOfLine (run.headD [])).length
        (headerWritesSpec (cellsOfLine (run.headD []))
          ++ dataWritesSpec (cellsOfLine (run.headD [])).length ((run.drop 2).map cellsOfLine)) := by
  constructor
  · cases run with
    | nil => simp at hlen
    | cons line rtail =>
        have hline : isTableLine line = true := hall line (by simp)
        have hsplit := takeWhile_dropWhile_append isTableLine rtail rest
          (fun x hx => hall x (by simp [hx])) hrest
        simp only [processLines, List.cons_append, processAux,
          isTableLine_not_fence hline, Bool.false_eq_true, if_false,
          headParse_none_of_table hline, listParse_none_of_table hline,
          hline, if_true, List.append_eq, hsplit.1, hsplit.2]
        have hlen' : 3 ≤ (line :: rtail).length := by simpa using hlen
        rw [if_pos hlen']
        rw [processAux_congr ((line :: (rtail ++ rest)).length) rest none
          ((line :: (rtail ++ rest)).length) (rest.length + 1)
          (by simp; omega) (by omega) (by simp; omega)]
  · rw [mkTable_writes run]
    have : (run.drop 2).length + 1 = run.length - 1 := by
      simp only [List.length_drop]; omega
    rw [this]

theorem c6_witness :
    processLines ([['|', 'A', '|', 'B', '|'], ['|', '-', '|', '-', '|'],
        ['|', '1', '|', '2', '|']] ++ [])
      = mkTable [['|', 'A', '|', 'B', '|'], ['|', '-', '|', '-', '|'],
          ['|', '1', '|', '2', '|']] :: DocUnit.emptyPara :: processLines []
    ∧ mkTable [['|', 'A', '|', 'B', '|'], ['|', '-', '|', '-', '|'],
        ['|', '1', '|', '2', '|']]
      = DocUnit.tableUnit 2 2
          (headerWritesSpec [['A'], ['B']] ++ dataWritesSpec 2 [[['1'], ['2']]]) := by
  have h := c6_table_classification
    [['|', 'A', '|', 'B', '|'], ['|', '-', '|', '-', '|'], ['|', '1', '|', '2', '|']] []
    (by decide) (by decide) (by intro l hl; simp at hl)
  exact ⟨h.1, h.2.trans (by rfl)⟩

/-- C10: for every classified table run the rendered grid has exactly as
many columns as the header line has cells and one row per non-separator
line; every cell write stays inside the rows-by-columns grid, and data
cells beyond the header's column count are silently discarded (the data
writes are the rows truncated to the column count). -/
theorem c10_table_grid_safety (run : List (List Char))
    (_hall : ∀ l ∈ run, isTableLine l = true) (hlen : 3 ≤ run.length) :
    ∃ ws, mkTable run = DocUnit.tableUnit (run.length - 1)
        (cellsOfLine (run.headD [])).length ws
      ∧ (∀ w ∈ ws, w.row < run.length - 1 ∧ w.col < (cellsOfLine (run.headD [])).length)
      ∧ ws = headerWritesSpec (cellsOfLine (run.headD []))
          ++ dataWritesSpec (cellsOfLine (run.headD [])).length ((run.drop 2).map cellsOfLine) := by
  refine ⟨_, ?_, ?_, rfl⟩
  · rw [mkTable_writes run]
    have : (run.drop 2).length + 1 = run.length - 1 := by
      simp only [List.length_drop]; omega
    rw [this]
  · intro w hw
    rcases List.mem_append.mp hw with hh | hd
    · have := mem_headerWritesSpec hh
      omega
    · have := mem_dataWritesSpec hd
      have hrows : ((run.drop 2).map cellsOfLine).length = run.length - 2 := by
        simp [List.length_drop]
      omega

theorem c10_witness :
    ∃ ws, mkTable [['|', 'A', '|', 'B', '|'], ['|', '-', '|', '-', '|'],
        ['|', '1', '|', '2', '|'], ['|', '3', '|', '4', '|', '5', '|']]
        = DocUnit.tableUnit 3 2 ws
      ∧ (∀ w ∈ ws, w.row < 3 ∧ w.col < 2)
      ∧ ws = headerWritesSpec [['A'], ['B']]
          ++ dataWritesSpec 2 [[['1'], ['2']], [['3'], ['4'], ['5']]] := by
  have h := c10_table_grid_safety
    [['|', 'A', '|', 'B', '|'], ['|', '-', '|', '-', '|'],
     ['|', '1', '|', '2', '|'], ['|', '3', '|', '4', '|', '5', '|']]
    (by decide) (by decide)
  obtain ⟨ws, h1, h2, h3⟩ := h
  exact ⟨ws, h1, h2, h3.trans (by rfl)⟩

/-! ### Claims C5 and C4 -/

/-- C5 counterexample: on the line `****` the bold regex matches with an
empty body, and the tokenizer emits a zero-length bold span, so the claim
that no zero-length span is ever emitted is false. -/
theorem c5_counterexample :
    tokenizeInline ['*', '*', '*', '*'] = [Span.bold []] := rfl

/-- C5 (amended): the tokenizer never emits a zero-length *plain* span:
the text before a selected match is emitted only when the match starts
past position 0, and the final remainder is emitted only when non-empty.
Typed spans, however, can be empty, as `****` shows. -/
theorem c5_plain_spans_nonempty :
    ∀ (s : List Char) (t : List Char), Span.plain t ∈ tokenizeInline s → t ≠ [] := by
  have main : ∀ (fuel : Nat) (s t : List Char), Span.plain t ∈ tokenizeAux fuel s → t ≠ [] := by
    intro fuel
    induction fuel with
    | zero => intro s t h; simp [tokenizeAux] at h
    | succ f ih =>
        intro s t h
        cases s with
        | nil => simp [tokenizeAux] at h
        | cons c cs =>
            simp only [tokenizeAux] at h
            cases hc : chooseMatch (c :: cs) with
            | none =>
                rw [hc] at h
                simp at h
                simp [h]
            | some km =>
                rw [hc] at h
                simp only [List.mem_append, List.mem_cons] at h
                rcases h with h | h | h
                · by_cases hs : 0 < km.2.start
                  · rw [if_pos hs] at h
                    simp at h
                    subst h
                    cases hst : km.2.start with
                    | zero => omega
                    | succ n => simp [hst, List.take_cons]
                  · rw [if_neg hs] at h
                    simp at h
                · exfalso
                  cases hk : km.1 <;> rw [hk] at h <;> simp [mkSpan] at h
                · exact ih _ _ h
  intro s t h
  exact main _ s t h

theorem c5_witness :
    Span.plain ['x'] ∈ tokenizeInline ['x', '*', '*', 'b', '*', '*'] ∧ ['x'] ≠ [] :=
  ⟨by decide, c5_plain_spans_nonempty ['x', '*', '*', 'b', '*', '*'] ['x'] (by decide)⟩

/-- The fold of the selection keeps the first candidate attaining the
minimal start position. -/
theorem pickFold_spec :
    ∀ (xs : List (MKind × RMatch)) (acc r : MKind × RMatch), pickFold acc xs = r →
      (r = acc ∧ ∀ z ∈ xs, acc.2.start ≤ z.2.start)
      ∨ (∃ pre post, xs = pre ++ r :: post ∧ r.2.start < acc.2.start
          ∧ (∀ z ∈ pre, r.2.start < z.2.start) ∧ (∀ z ∈ xs, r.2.start ≤ z.2.start)) := by
  intro xs
  induction xs with
  | nil =>
      intro acc r h
      simp only [pickFold] at h
      left
      exact ⟨h.symm, by simp⟩
  | cons x rest ih =>
      intro acc r h
      by_cases hx : x.2.start < acc.2.start
      · have h' : pickFold x rest = r := by
          rw [← h]; simp [pickFold, if_pos hx]
        rcases ih x r h' with ⟨req, hmin⟩ | ⟨pre, post, hsplit, hlt, hpre, hmin⟩
        · right
          refine ⟨[], rest, ?_, ?_, by simp, ?_⟩
          · rw [req]; simp
          · rw [req]; exact hx
          · intro z hz
            rcases List.mem_cons.mp hz with rfl | hz'
            · rw [req]
            · rw [req]; exact hmin z hz'
        · right
          refine ⟨x :: pre, post, ?_, lt_trans hlt hx, ?_, ?_⟩
          · rw [List.cons_append]
            exact congrArg (x :: ·) hsplit
          · intro z hz
            rcases List.mem_cons.mp hz with rfl | hz'
            · exact hlt
            · exact hpre z hz'
          · intro z hz
            rcases List.mem_cons.mp hz with rfl | hz'
            · exact le_of_lt hlt
            · exact hmin z hz'
      · have h' : pickFold acc rest = r := by
          rw [← h]; simp [pickFold, if_neg hx]
        rcases ih acc r h' with ⟨req, hmin⟩ | ⟨pre, post, hsplit, hlt, hpre, hmin⟩
        · left
          refine ⟨req, ?_⟩
          intro z hz
          rcases List.mem_cons.mp hz with rfl | hz'
          · omega
          · exact hmin z hz'
        · right
          refine ⟨x :: pre, post, ?_, hlt, ?_, ?_⟩
          · rw [List.cons_append]
            exact congrArg (x :: ·) hsplit
          · intro z hz
            rcases List.mem_cons.mp hz with rfl | hz'
            · omega
            · exact hpre z hz'
          · intro z hz
            rcases List.mem_cons.mp hz with rfl | hz'
            · omega
            · exact hmin z hz'

/-- The selected candidate sits in the candidate list with only
strictly-later-starting candidates before it, and no candidate starts
earlier. -/
theorem chooseMatch_split {s : List Char} {km : MKind × RMatch}
    (h : chooseMatch s = some km) :
    ∃ pre post, candidates s = pre ++ km :: post
      ∧ (∀ z ∈ pre, km.2.start < z.2.start)
      ∧ (∀ z ∈ candidates s, km.2.start ≤ z.2.start) := by
  unfold chooseMatch at h
  cases hc : candidates s with
  | nil => rw [hc] at h; simp at h
  | cons x xs =>
      rw [hc] at h
      simp only [Option.some.injEq] at h
      rcases pickFold_spec xs x km h with ⟨req, hmin⟩ | ⟨pre, post, hsplit, hlt, hpre, hmin⟩
      · refine ⟨[], xs, ?_, by simp, ?_⟩
        · rw [req]; simp
        · intro z hz
          rcases List.mem_cons.mp hz with rfl | hz'
          · rw [req]
          · rw [req]; exact hmin z hz'
      · refine ⟨x :: pre, post, ?_, ?_, ?_⟩
        · rw [List.cons_append]
          exact congrArg (x :: ·) hsplit
        · intro z hz
          rcases List.mem_cons.mp hz with rfl | hz'
          · exact hlt
          · exact hpre z hz'
        · intro z hz
          rcases List.mem_cons.mp hz with rfl | hz'
          · exact le_of_lt hlt
          · exact hmin z hz'

theorem mem_candidates_iff {s : List Char} {k : MKind} {m : RMatch} :
    (k, m) ∈ candidates s ↔ searchOf k s = some m := by
  cases hb : searchBold s <;> cases hi : searchItal s <;>
    cases hc : searchCode s <;> cases hl : searchLink s <;>
      cases k <;>
        simp [candidates, searchOf, hb, hi, hc, hl, eq_comm]

theorem candidates_pairwise (s : List Char) :
    (candidates s).Pairwise (fun a b => prio a.1 < prio b.1) := by
  cases hb : searchBold s <;> cases hi : searchItal s <;>
    cases hc : searchCode s <;> cases hl : searchLink s <;>
      simp [candidates, hb, hi, hc, hl, prio]

/-- C4: at every tokenization step, among the candidate matches of the
four patterns the one with the earliest start in the remaining text is
selected; on equal starts the fixed order bold, italic, code, link (the
order of the source's candidate list under Python's stable sort) decides.
When no pattern matches, no candidate is selected. -/
theorem c4_earliest_match_selection (s : List Char) :
    (∀ k m, chooseMatch s = some (k, m) →
      searchOf k s = some m
      ∧ (∀ k' m', searchOf k' s = some m' →
          m.start ≤ m'.start ∧ (m'.start = m.start → prio k ≤ prio k')))
    ∧ (chooseMatch s = none → ∀ k', searchOf k' s = none) := by
  constructor
  · intro k m hkm
    obtain ⟨pre, post, hsplit, hpre, hmin⟩ := chooseMatch_split hkm
    have hmem : (k, m) ∈ candidates s := by rw [hsplit]; simp
    refine ⟨mem_candidates_iff.mp hmem, ?_⟩
    intro k' m' h'
    have hmem' : (k', m') ∈ candidates s := mem_candidates_iff.mpr h'
    refine ⟨hmin _ hmem', ?_⟩
    intro heq
    have hpw := candidates_pairwise s
    rw [hsplit] at hpw hmem'
    rcases List.mem_append.mp hmem' with hp | hq
    · have h2 : m.start < m'.start := hpre _ hp
      omega
    · rcases List.mem_cons.mp hq with hq1 | hq2
      · rw [show k' = k from congrArg Prod.fst hq1]
      · have hcp := (List.pairwise_append.mp hpw).2.1
        have := (List.pairwise_cons.mp hcp).1 _ hq2
        exact le_of_lt this
  · intro hn k'
    unfold chooseMatch at hn
    cases hc : candidates s with
    | cons x xs => rw [hc] at hn; simp at hn
    | nil =>
        cases hs : searchOf k' s with
        | none => rfl
        | some m' =>
            exfalso
            have : (k', m') ∈ candidates s := mem_candidates_iff.mpr hs
            rw [hc] at this
            simp at this

/-- Concrete line for the C4 witness: `a**b** *c*`. -/
def c4str : List Char := ['a', '*', '*', 'b', '*', '*', ' ', '*', 'c', '*']

theorem c4_witness :
    searchOf MKind.bold c4str = some ⟨1, 6, ['b']⟩
    ∧ (∀ k' m', searchOf k' c4str = some m' →
        RMatch.start ⟨1, 6, ['b']⟩ ≤ m'.start
        ∧ (m'.start = RMatch.start ⟨1, 6, ['b']⟩ → prio MKind.bold ≤ prio k')) :=
  (c4_earliest_match_selection c4str).1 MKind.bold ⟨1, 6, ['b']⟩ (by decide)

/-! ### Claim C3: searches on delimiter-free prefixes -/

theorem isSpecial_spell {c : Char} (h : isSpecial c = false) :
    c ≠ '*' ∧ c ≠ '_' ∧ c ≠ '`' ∧ c ≠ '[' ∧ c ≠ ']' ∧ c ≠ '(' ∧ c ≠ ')' := by
  unfold isSpecial at h
  simp only [Bool.or_eq_false_iff, decide_eq_false_iff_not] at h
  tauto

theorem boldAt_none {c : Char} (h : isSpecial c = false) (l : List Char) :
    boldAt (c :: l) = none := by
  obtain ⟨h1, h2, _, _, _, _, _⟩ := isSpecial_spell h
  cases l with
  | nil => rfl
  | cons y rest =>
      simp only [boldAt]
      rw [if_neg]
      rintro (⟨hc, _⟩ | ⟨hc, _⟩)
      · exact h1 hc
      · exact h2 hc

theorem italAt_none {c : Char} (h : isSpecial c = false) (l : List Char) :
    italAt (c :: l) = none := by
  obtain ⟨h1, h2, _, _, _, _, _⟩ := isSpecial_spell h
  cases l with
  | nil => rfl
  | cons y rest =>
      simp only [italAt]
      rw [if_neg]
      rintro ⟨hc | hc, _⟩
      · exact h1 hc
      · exact h2 hc

theorem codeAt_none {c : Char} (h : isSpecial c = false) (l : List Char) :
    codeAt (c :: l) = none := by
  obtain ⟨_, _, h3, _, _, _, _⟩ := isSpecial_spell h
  simp only [codeAt]
  rw [if_neg h3]

theorem linkAt_none {c : Char} (h : isSpecial c = false) (l : List Char) :
    linkAt (c :: l) = none := by
  obtain ⟨_, _, _, h4, _, _, _⟩ := isSpecial_spell h
  simp only [linkAt]
  rw [if_neg h4]

/-- Shift of a match past a prefix. -/
def shiftBy (n : Nat) (m : RMatch) : RMatch :=
  ⟨m.start + n, m.stop + n, m.inner⟩

theorem searchBold_cons_none {c : Char} {t : List Char} (h : boldAt (c :: t) = none) :
    searchBold (c :: t) = (searchBold t).map (fun m => ⟨m.start + 1, m.stop + 1, m.inner⟩) := by
  conv_lhs => rw [searchBold]
  rw [h]

theorem searchItal_cons_none {c : Char} {t : List Char} (h : italAt (c :: t) = none) :
    searchItal (c :: t) = (searchItal t).map (fun m => ⟨m.start + 1, m.stop + 1, m.inner⟩) := by
  conv_lhs => rw [searchItal]
  rw [h]

theorem searchCode_cons_none {c : Char} {t : List Char} (h : codeAt (c :: t) = none) :
    searchCode (c :: t) = (searchCode t).map (fun m => ⟨m.start + 1, m.stop + 1, m.inner⟩) := by
  conv_lhs => rw [searchCode]
  rw [h]

theorem searchLink_cons_none {c : Char} {t : List Char} (h : linkAt (c :: t) = none) :
    searchLink (c :: t) = (searchLink t).map (fun m => ⟨m.start + 1, m.stop + 1, m.inner⟩) := by
  conv_lhs => rw [searchLink]
  rw [h]

theorem searchBold_append_plain {p : List Char} (hp : plainOK p = true) (s : List Char) :
    searchBold (p ++ s) = (searchBold s).map (shiftBy p.length) := by
  induction p with
  | nil =>
      rw [List.nil_append]
      cases hs : searchBold s with
      | none => rfl
      | some m => rfl
  | cons c p' ih =>
      simp only [plainOK, List.all_cons, Bool.and_eq_true, Bool.not_eq_eq_eq_not,
        Bool.not_true] at hp
      have hih := ih (by simp [plainOK, hp.2])
      rw [List.cons_append, searchBold_cons_none (boldAt_none hp.1 _), hih]
      cases searchBold s with
      | none => rfl
      | some m => simp [shiftBy]; omega

theorem searchItal_append_plain {p : List Char} (hp : plainOK p = true) (s : List Char) :
    searchItal (p ++ s) = (searchItal s).map (shiftBy p.length) := by
  induction p with
  | nil =>
      rw [List.nil_append]
      cases hs : searchItal s with
      | none => rfl
      | some m => rfl
  | cons c p' ih =>
      simp only [plainOK, List.all_cons, Bool.and_eq_true, Bool.not_eq_eq_eq_not,
        Bool.not_true] at hp
      have hih := ih (by simp [plainOK, hp.2])
      rw [List.cons_append, searchItal_cons_none (italAt_none hp.1 _), hih]
      cases searchItal s with
      | none => rfl
      | some m => simp [shiftBy]; omega

theorem searchCode_append_plain {p : List Char} (hp : plainOK p = true) (s : List Char) :
    searchCode (p ++ s) = (searchCode s).map (shiftBy p.length) := by
  induction p with
  | nil =>
      rw [List.nil_append]
      cases hs : searchCode s with
      | none => rfl
      | some m => rfl
  | cons c p' ih =>
      simp only [plainOK, List.all_cons, Bool.and_eq_true, Bool.not_eq_eq_eq_not,
        Bool.not_true] at hp
      have hih := ih (by simp [plainOK, hp.2])
      rw [List.cons_append, searchCode_cons_none (codeAt_none hp.1 _), hih]
      cases searchCode s with
      | none => rfl
      | some m => simp [shiftBy]; omega

theorem searchLink_append_plain {p : List Char} (hp : plainOK p = true) (s : List Char) :
    searchLink (p ++ s) = (searchLink s).map (shiftBy p.length) := by
  induction p with
  | nil =>
      rw [List.nil_append]
      cases hs : searchLink s with
      | none => rfl
      | some m => rfl
  | cons c p' ih =>
      simp only [plainOK, List.all_cons, Bool.and_eq_true, Bool.not_eq_eq_eq_not,
        Bool.not_true] at hp
      have hih := ih (by simp [plainOK, hp.2])
      rw [List.cons_append, searchLink_cons_none (linkAt_none hp.1 _), hih]
      cases searchLink s with
      | none => rfl
      | some m => simp [shiftBy]; omega

/-- On delimiter-free text no pattern matches at all. -/
theorem chooseMatch_plain {p : List Char} (hp : plainOK p = true) :
    chooseMatch p = none := by
  have hb := searchBold_append_plain hp []
  have hi := searchItal_append_plain hp []
  have hc := searchCode_append_plain hp []
  have hl := searchLink_append_plain hp []
  simp only [List.append_nil] at hb hi hc hl
  simp [chooseMatch, candidates, hb, hi, hc, hl, searchBold, searchItal,
    searchCode, searchLink]

/-- Length of a rendered segment. -/
def segLen : Seg → Nat
  | .bold _ t => t.length + 4
  | .italic _ t => t.length + 2
  | .code t => t.length + 2
  | .link t u => t.length + u.length + 4

theorem renderSeg_length (sg : Seg) : (renderSeg sg).length = segLen sg := by
  cases sg <;> (simp [renderSeg, segLen]; try omega)

theorem findAdjPair_at {a : Char} (b : Char) {t : List Char} (ht : ∀ c ∈ t, ¬(c = a)) :
    ∀ r : List Char, findAdjPair a b (t ++ a :: b :: r) = some t.length := by
  induction t with
  | nil => intro r; simp [findAdjPair]
  | cons c t' ih =>
      intro r
      have hc : ¬(c = a) := ht c (by simp)
      have ht' : ∀ x ∈ t', ¬(x = a) := fun x hx => ht x (by simp [hx])
      rw [List.cons_append]
      cases htr : t' ++ a :: b :: r with
      | nil => simp at htr
      | cons y ys =>
          rw [← htr]
          rw [show findAdjPair a b (c :: (t' ++ a :: b :: r))
              = (findAdjPair a b (t' ++ a :: b :: r)).map (· + 1) from by
            rw [htr]
            simp only [findAdjPair]
            rw [if_neg (fun hand => hc hand.1), ← htr]]
          rw [ih ht' r]
          simp

theorem firstIdx_at {p : Char → Bool} {a : Char} {t : List Char}
    (ht : ∀ c ∈ t, p c = false) (ha : p a = true) :
    ∀ r : List Char, firstIdx p (t ++ a :: r) = some t.length := by
  induction t with
  | nil => intro r; simp [firstIdx, ha]
  | cons c t' ih =>
      intro r
      have hc : p c = false := ht c (by simp)
      have ht' : ∀ x ∈ t', p x = false := fun x hx => ht x (by simp [hx])
      rw [List.cons_append]
      simp only [firstIdx, hc, Bool.false_eq_true, if_false]
      rw [ih ht' r]
      simp

theorem searchBold_cons_some {c : Char} {t : List Char} {m : RMatch}
    (h : boldAt (c :: t) = some m) : searchBold (c :: t) = some m := by
  conv_lhs => rw [searchBold]
  rw [h]

theorem searchItal_cons_some {c : Char} {t : List Char} {m : RMatch}
    (h : italAt (c :: t) = some m) : searchItal (c :: t) = some m := by
  conv_lhs => rw [searchItal]
  rw [h]

theorem searchCode_cons_some {c : Char} {t : List Char} {m : RMatch}
    (h : codeAt (c :: t) = some m) : searchCode (c :: t) = some m := by
  conv_lhs => rw [searchCode]
  rw [h]

theorem searchLink_cons_some {c : Char} {t : List Char} {m : RMatch}
    (h : linkAt (c :: t) = some m) : searchLink (c :: t) = some m := by
  conv_lhs => rw [searchLink]
  rw [h]

theorem boldAt_none_head {c : Char} (h1 : ¬(c = '*')) (h2 : ¬(c = '_')) (l : List Char) :
    boldAt (c :: l) = none := by
  cases l with
  | nil => rfl
  | cons y rest =>
      simp only [boldAt]
      rw [if_neg]
      rintro (⟨hc, _⟩ | ⟨hc, _⟩)
      · exact h1 hc
      · exact h2 hc

theorem boldAt_none_snd {x y : Char} (h1 : ¬(y = '*')) (h2 : ¬(y = '_')) (l : List Char) :
    boldAt (x :: y :: l) = none := by
  simp only [boldAt]
  rw [if_neg]
  rintro (⟨_, hc⟩ | ⟨_, hc⟩)
  · exact h1 hc
  · exact h2 hc

theorem italAt_none_head {c : Char} (h1 : ¬(c = '*')) (h2 : ¬(c = '_')) (l : List Char) :
    italAt (c :: l) = none := by
  cases l with
  | nil => rfl
  | cons y rest =>
      simp only [italAt]
      rw [if_neg]
      rintro ⟨hc | hc, _⟩
      · exact h1 hc
      · exact h2 hc

theorem italAt_none_same (d : Char) (l : List Char) : italAt (d :: d :: l) = none := by
  simp only [italAt]
  rw [if_neg]
  rintro ⟨_, hne⟩
  exact hne rfl

theorem codeAt_none_head {c : Char} (h : ¬(c = '`')) (l : List Char) :
    codeAt (c :: l) = none := by
  simp only [codeAt]
  rw [if_neg h]

theorem linkAt_none_head {c : Char} (h : ¬(c = '[')) (l : List Char) :
    linkAt (c :: l) = none := by
  simp only [linkAt]
  rw [if_neg h]

theorem searchBold_pos {c : Char} {cs : List Char} {m' : RMatch}
    (hat : boldAt (c :: cs) = none) (h : searchBold (c :: cs) = some m') : 1 ≤ m'.start := by
  rw [searchBold_cons_none hat] at h
  cases hcs : searchBold cs with
  | none => rw [hcs] at h; simp at h
  | some m =>
      rw [hcs] at h
      injection h with h2
      subst h2
      show 1 ≤ m.start + 1
      omega

theorem searchItal_pos {c : Char} {cs : List Char} {m' : RMatch}
    (hat : italAt (c :: cs) = none) (h : searchItal (c :: cs) = some m') : 1 ≤ m'.start := by
  rw [searchItal_cons_none hat] at h
  cases hcs : searchItal cs with
  | none => rw [hcs] at h; simp at h
  | some m =>
      rw [hcs] at h
      injection h with h2
      subst h2
      show 1 ≤ m.start + 1
      omega

theorem searchCode_pos {c : Char} {cs : List Char} {m' : RMatch}
    (hat : codeAt (c :: cs) = none) (h : searchCode (c :: cs) = some m') : 1 ≤ m'.start := by
  rw [searchCode_cons_none hat] at h
  cases hcs : searchCode cs with
  | none => rw [hcs] at h; simp at h
  | some m =>
      rw [hcs] at h
      injection h with h2
      subst h2
      show 1 ≤ m.start + 1
      omega

theorem searchLink_pos {c : Char} {cs : List Char} {m' : RMatch}
    (hat : linkAt (c :: cs) = none) (h : searchLink (c :: cs) = some m') : 1 ≤ m'.start := by
  rw [searchLink_cons_none hat] at h
  cases hcs : searchLink cs with
  | none => rw [hcs] at h; simp at h
  | some m =>
      rw [hcs] at h
      injection h with h2
      subst h2
      show 1 ≤ m.start + 1
      omega

/-- If a candidate is strictly earlier than every other candidate, it is
the one selected. -/
theorem chooseMatch_unique_min {s : List Char} {k : MKind} {m : RMatch}
    (hmem : (k, m) ∈ candidates s)
    (hmin : ∀ z ∈ candidates s, z = (k, m) ∨ m.start < z.2.start) :
    chooseMatch s = some (k, m) := by
  cases hc : candidates s with
  | nil => rw [hc] at hmem; simp at hmem
  | cons x xs =>
      have hsome : chooseMatch s = some (pickFold x xs) := by
        unfold chooseMatch; rw [hc]
      obtain ⟨pre, post, hsplit, hpre, hminr⟩ := chooseMatch_split hsome
      have hrmem : pickFold x xs ∈ candidates s := by rw [hsplit]; simp
      rcases hmin _ hrmem with heq | hlt
      · rw [hsome, heq]
      · have h2 : (pickFold x xs).2.start ≤ m.start := hminr _ hmem
        omega

theorem plainOK_mem {t : List Char} {c : Char} (h : plainOK t = true) (hc : c ∈ t) :
    c ≠ '*' ∧ c ≠ '_' ∧ c ≠ '`' ∧ c ≠ '[' ∧ c ≠ ']' ∧ c ≠ '(' ∧ c ≠ ')' := by
  apply isSpecial_spell
  simp only [plainOK, List.all_eq_true, Bool.not_eq_eq_eq_not, Bool.not_true] at h
  exact h c hc

theorem boldAt_render {us : Bool} {t : List Char} (hpl : plainOK t = true)
    (rest : List Char) :
    boldAt (renderSeg (.bold us t) ++ rest) = some ⟨0, segLen (.bold us t), t⟩ := by
  cases us with
  | false =>
      have hno : ∀ c ∈ t, ¬(c = '*') := fun c hc => (plainOK_mem hpl hc).1
      show boldAt ('*' :: '*' :: ((t ++ ['*', '*']) ++ rest)) = _
      have hre : (t ++ ['*', '*']) ++ rest = t ++ '*' :: '*' :: rest := by
        simp
      rw [hre]
      simp only [boldAt]
      rw [if_pos (by decide), findAdjPair_at '*' hno rest]
      simp only [Option.map_some']
      rw [show ('*' : Char) :: '*' :: rest = ['*', '*'] ++ rest from rfl]
      rw [← List.append_assoc, List.take_append_of_le_length (by simp),
        List.take_left]
      rfl
  | true =>
      have hno : ∀ c ∈ t, ¬(c = '_') := fun c hc => (plainOK_mem hpl hc).2.1
      show boldAt ('_' :: '_' :: ((t ++ ['_', '_']) ++ rest)) = _
      have hre : (t ++ ['_', '_']) ++ rest = t ++ '_' :: '_' :: rest := by
        simp
      rw [hre]
      simp only [boldAt]
      rw [if_pos (by decide), findAdjPair_at '_' hno rest]
      simp only [Option.map_some']
      rw [show ('_' : Char) :: '_' :: rest = ['_', '_'] ++ rest from rfl]
      rw [← List.append_assoc, List.take_append_of_le_length (by simp),
        List.take_left]
      rfl

theorem italAt_render {us : Bool} {t0 : Char} {t' : List Char}
    (hpl : plainOK (t0 :: t') = true) (rest : List Char) :
    italAt (renderSeg (.italic us (t0 :: t')) ++ rest)
      = some ⟨0, segLen (.italic us (t0 :: t')), t0 :: t'⟩ := by
  cases us with
  | false =>
      have ht0 : ¬(t0 = '*') := (plainOK_mem hpl (List.mem_cons_self t0 t')).1
      have hno : ∀ c ∈ t', (decide (c = '*') : Bool) = false := by
        intro c hc
        simp [(plainOK_mem hpl (List.mem_cons_of_mem t0 hc)).1]
      show italAt ('*' :: ((t0 :: t' ++ ['*']) ++ rest)) = _
      have hre : (t0 :: t' ++ ['*']) ++ rest = t0 :: (t' ++ '*' :: rest) := by
        simp
      rw [hre]
      simp only [italAt]
      rw [if_pos ⟨by decide, ht0⟩, firstIdx_at hno (by simp) rest]
      simp only [Option.map_some']
      rw [show ('*' : Char) :: rest = ['*'] ++ rest from rfl]
      rw [← List.append_assoc, List.take_append_of_le_length (by simp),
        List.take_left]
      simp [segLen]
  | true =>
      have ht0 : ¬(t0 = '_') := (plainOK_mem hpl (List.mem_cons_self t0 t')).2.1
      have hno : ∀ c ∈ t', (decide (c = '_') : Bool) = false := by
        intro c hc
        simp [(plainOK_mem hpl (List.mem_cons_of_mem t0 hc)).2.1]
      show italAt ('_' :: ((t0 :: t' ++ ['_']) ++ rest)) = _
      have hre : (t0 :: t' ++ ['_']) ++ rest = t0 :: (t' ++ '_' :: rest) := by
        simp
      rw [hre]
      simp only [italAt]
      rw [if_pos ⟨by decide, ht0⟩, firstIdx_at hno (by simp) rest]
      simp only [Option.map_some']
      rw [show ('_' : Char) :: rest = ['_'] ++ rest from rfl]
      rw [← List.append_assoc, List.take_append_of_le_length (by simp),
        List.take_left]
      simp [segLen]

theorem codeAt_render {t : List Char} (hpl : plainOK t = true) (rest : List Char) :
    codeAt (renderSeg (.code t) ++ rest) = some ⟨0, segLen (.code t), t⟩ := by
  have hno : ∀ c ∈ t, (decide (c = '`') : Bool) = false := by
    intro c hc
    simp [(plainOK_mem hpl hc).2.2.1]
  show codeAt ('`' :: ((t ++ ['`']) ++ rest)) = _
  have hre : (t ++ ['`']) ++ rest = t ++ '`' :: rest := by simp
  rw [hre]
  simp only [codeAt]
  rw [if_pos (by decide), firstIdx_at hno (by simp) rest]
  simp only [Option.map_some']
  rw [show ('`' : Char) :: rest = ['`'] ++ rest from rfl]
  rw [← List.append_assoc, List.take_append_of_le_length (by simp),
    List.take_left]
  rfl

theorem linkAt_render {t u : List Char} (hpl : plainOK t = true)
    (hplu : plainOK u = true) (rest : List Char) :
    linkAt (renderSeg (.link t u) ++ rest) = some ⟨0, segLen (.link t u), t⟩ := by
  have hnot : ∀ c ∈ t, ¬(c = ']') := fun c hc => (plainOK_mem hpl hc).2.2.2.2.1
  have hnou : ∀ c ∈ u, (decide (c = ')') : Bool) = false := by
    intro c hc
    simp [(plainOK_mem hplu hc).2.2.2.2.2.2]
  show linkAt ('[' :: ((t ++ ']' :: '(' :: (u ++ [')'])) ++ rest)) = _
  have hre : (t ++ ']' :: '(' :: (u ++ [')'])) ++ rest
      = t ++ ']' :: '(' :: (u ++ ')' :: rest) := by
    simp
  rw [hre]
  simp only [linkAt]
  rw [if_pos (by decide), findAdjPair_at '(' hnot (u ++ ')' :: rest)]
  dsimp only
  have hdrop : (t ++ ']' :: '(' :: (u ++ ')' :: rest)).drop (t.length + 2)
      = u ++ ')' :: rest := by
    rw [show t ++ ']' :: '(' :: (u ++ ')' :: rest)
        = (t ++ [']', '(']) ++ (u ++ ')' :: rest) from by simp]
    rw [show t.length + 2 = (t ++ [']', '(']).length from by simp]
    exact List.drop_left _ _
  rw [hdrop, firstIdx_at hnou (by simp) rest]
  have htake : (t ++ ']' :: '(' :: (u ++ ')' :: rest)).take t.length = t := by
    rw [show t ++ ']' :: '(' :: (u ++ ')' :: rest)
        = t ++ (']' :: '(' :: (u ++ ')' :: rest)) from rfl]
    exact List.take_left _ _
  rw [htake]
  rfl

theorem segOK_bold {us : Bool} {t : List Char} (h : segOK (.bold us t) = true) :
    t ≠ [] ∧ plainOK t = true := by
  simp only [segOK, Bool.and_eq_true, Bool.not_eq_eq_eq_not, Bool.not_true,
    List.isEmpty_eq_false] at h
  exact h

theorem segOK_italic {us : Bool} {t : List Char} (h : segOK (.italic us t) = true) :
    t ≠ [] ∧ plainOK t = true := by
  simp only [segOK, Bool.and_eq_true, Bool.not_eq_eq_eq_not, Bool.not_true,
    List.isEmpty_eq_false] at h
  exact h

theorem segOK_code {t : List Char} (h : segOK (.code t) = true) :
    t ≠ [] ∧ plainOK t = true := by
  simp only [segOK, Bool.and_eq_true, Bool.not_eq_eq_eq_not, Bool.not_true,
    List.isEmpty_eq_false] at h
  exact h

theorem segOK_link {t u : List Char} (h : segOK (.link t u) = true) :
    t ≠ [] ∧ plainOK t = true ∧ plainOK u = true := by
  simp only [segOK, Bool.and_eq_true, Bool.not_eq_eq_eq_not, Bool.not_true,
    List.isEmpty_eq_false] at h
  exact ⟨h.1.1, h.1.2, h.2⟩

/-- The search of a segment's own kind finds exactly the segment's match
at the head of its rendering. -/
theorem searchOf_at_seg (sg : Seg) (hsg : segOK sg = true) (rest : List Char) :
    searchOf (segKind sg) (renderSeg sg ++ rest) = some ⟨0, segLen sg, segText sg⟩ := by
  cases sg with
  | bold us t =>
      exact searchBold_cons_some (by cases us <;> exact boldAt_render (segOK_bold hsg).2 rest)
  | italic us t =>
      obtain ⟨hne, hpl⟩ := segOK_italic hsg
      cases t with
      | nil => exact absurd rfl hne
      | cons t0 t' =>
          exact searchItal_cons_some (by cases us <;> exact italAt_render hpl rest)
  | code t =>
      exact searchCode_cons_some (codeAt_render (segOK_code hsg).2 rest)
  | link t u =>
      exact searchLink_cons_some (linkAt_render (segOK_link hsg).2.1 (segOK_link hsg).2.2 rest)

/-- Any other kind's match on a rendered segment starts strictly after
the head. -/
theorem searchOf_other_pos (sg : Seg) (hsg : segOK sg = true) (rest : List Char)
    (k' : MKind) (hk : k' ≠ segKind sg) (m' : RMatch)
    (h : searchOf k' (renderSeg sg ++ rest) = some m') : 1 ≤ m'.start := by
  cases sg with
  | bold us t =>
      cases k' with
      | bold => exact absurd rfl hk
      | italic =>
          cases us
          · exact searchItal_pos (italAt_none_same '*' _) h
          · exact searchItal_pos (italAt_none_same '_' _) h
      | code =>
          cases us
          · exact searchCode_pos (codeAt_none_head (c := '*') (by decide) _) h
          · exact searchCode_pos (codeAt_none_head (c := '_') (by decide) _) h
      | link =>
          cases us
          · exact searchLink_pos (linkAt_none_head (c := '*') (by decide) _) h
          · exact searchLink_pos (linkAt_none_head (c := '_') (by decide) _) h
  | italic us t =>
      obtain ⟨hne, hpl⟩ := segOK_italic hsg
      cases t with
      | nil => exact absurd rfl hne
      | cons t0 t' =>
          have ht0 := plainOK_mem hpl (List.mem_cons_self t0 t')
          cases k' with
          | italic => exact absurd rfl hk
          | bold =>
              cases us
              · exact searchBold_pos (boldAt_none_snd ht0.1 ht0.2.1 _) h
              · exact searchBold_pos (boldAt_none_snd ht0.1 ht0.2.1 _) h
          | code =>
              cases us
              · exact searchCode_pos (codeAt_none_head (c := '*') (by decide) _) h
              · exact searchCode_pos (codeAt_none_head (c := '_') (by decide) _) h
          | link =>
              cases us
              · exact searchLink_pos (linkAt_none_head (c := '*') (by decide) _) h
              · exact searchLink_pos (linkAt_none_head (c := '_') (by decide) _) h
  | code t =>
      cases k' with
      | code => exact absurd rfl hk
      | bold =>
          exact searchBold_pos (boldAt_none_head (c := '`') (by decide) (by decide) _) h
      | italic =>
          exact searchItal_pos (italAt_none_head (c := '`') (by decide) (by decide) _) h
      | link => exact searchLink_pos (linkAt_none_head (c := '`') (by decide) _) h
  | link t u =>
      cases k' with
      | link => exact absurd rfl hk
      | bold =>
          exact searchBold_pos (boldAt_none_head (c := '[') (by decide) (by decide) _) h
      | italic =>
          exact searchItal_pos (italAt_none_head (c := '[') (by decide) (by decide) _) h
      | code => exact searchCode_pos (codeAt_none_head (c := '[') (by decide) _) h

theorem searchOf_append_plain (k : MKind) {p : List Char} (hp : plainOK p = true)
    (s : List Char) : searchOf k (p ++ s) = (searchOf k s).map (shiftBy p.length) := by
  cases k with
  | bold => exact searchBold_append_plain hp s
  | italic => exact searchItal_append_plain hp s
  | code => exact searchCode_append_plain hp s
  | link => exact searchLink_append_plain hp s

/-- At the head of a well-formed segment (past a delimiter-free prefix),
the selection picks the segment's own kind and match. -/
theorem chooseMatch_seg {p0 : List Char} (sg : Seg) {rest : List Char}
    (hp : plainOK p0 = true) (hsg : segOK sg = true) :
    chooseMatch (p0 ++ (renderSeg sg ++ rest))
      = some (segKind sg, ⟨p0.length, segLen sg + p0.length, segText sg⟩) := by
  have hours : searchOf (segKind sg) (p0 ++ (renderSeg sg ++ rest))
      = some ⟨p0.length, segLen sg + p0.length, segText sg⟩ := by
    rw [searchOf_append_plain _ hp, searchOf_at_seg sg hsg rest]
    simp [shiftBy]
  apply chooseMatch_unique_min (mem_candidates_iff.mpr hours)
  intro z hz
  obtain ⟨k', m'⟩ := z
  have h' : searchOf k' (p0 ++ (renderSeg sg ++ rest)) = some m' :=
    mem_candidates_iff.mp hz
  by_cases hk : k' = segKind sg
  · subst hk
    rw [hours] at h'
    left
    injection h' with h2
    rw [h2]
  · right
    rw [searchOf_append_plain _ hp] at h'
    cases hso : searchOf k' (renderSeg sg ++ rest) with
    | none => rw [hso] at h'; simp at h'
    | some m0 =>
        rw [hso] at h'
        injection h' with h2
        have hpos : 1 ≤ m0.start := searchOf_other_pos sg hsg rest k' hk m0 hso
        rw [← h2]
        show RMatch.start ⟨p0.length, segLen sg + p0.length, segText sg⟩
          < (shiftBy p0.length m0).start
        simp [shiftBy]
        omega

theorem tokenizeAux_step {fuel : Nat} {s : List Char} {k : MKind} {m : RMatch}
    (hs : s ≠ []) (hc : chooseMatch s = some (k, m)) :
    tokenizeAux (fuel + 1) s =
      (if 0 < m.start then [Span.plain (s.take m.start)] else [])
      ++ mkSpan k m.inner :: tokenizeAux fuel (s.drop m.stop) := by
  cases s with
  | nil => exact absurd rfl hs
  | cons c cs => simp only [tokenizeAux, hc]

theorem tokenizeAux_nomatch {fuel : Nat} {s : List Char} (hs : s ≠ [])
    (hc : chooseMatch s = none) : tokenizeAux (fuel + 1) s = [Span.plain s] := by
  cases s with
  | nil => exact absurd rfl hs
  | cons c cs => simp only [tokenizeAux, hc]

theorem segLen_ge_two (sg : Seg) : 2 ≤ segLen sg := by
  cases sg <;> simp [segLen]

/-- The tokenizer, on a line made of well-formed segments separated by
delimiter-free plain text, emits exactly the expected span sequence. -/
theorem tokenizeAux_render :
    ∀ (segs : List (Seg × List Char)) (p0 : List Char) (fuel : Nat),
      lineOK segs = true → plainOK p0 = true →
      (renderLine p0 segs).length < fuel →
      tokenizeAux fuel (renderLine p0 segs)
        = (if p0.isEmpty then [] else [Span.plain p0]) ++ expSpans segs := by
  intro segs
  induction segs with
  | nil =>
      intro p0 fuel _ hp hfu
      simp only [renderLine, renderTail, List.append_nil] at hfu ⊢
      cases fuel with
      | zero => omega
      | succ f =>
          cases hp0 : p0 with
          | nil => simp [tokenizeAux, expSpans]
          | cons c cs =>
              subst hp0
              rw [tokenizeAux_nomatch (by simp) (chooseMatch_plain hp)]
              simp [expSpans]
  | cons sp rest' ih =>
      intro p0 fuel hok hp hfu
      obtain ⟨sg, p⟩ := sp
      have hok' : (segOK sg && plainOK p) = true ∧ lineOK rest' = true := by
        simp only [lineOK, List.all_cons] at hok
        exact ⟨(Bool.and_eq_true .. |>.mp hok).1, (Bool.and_eq_true .. |>.mp hok).2⟩
      have hsg : segOK sg = true := (Bool.and_eq_true .. |>.mp hok'.1).1
      have hpp : plainOK p = true := (Bool.and_eq_true .. |>.mp hok'.1).2
      have hshape : renderLine p0 ((sg, p) :: rest')
          = p0 ++ (renderSeg sg ++ (p ++ renderTail rest')) := by
        simp [renderLine, renderTail]
      have hchoose : chooseMatch (renderLine p0 ((sg, p) :: rest'))
          = some (segKind sg, ⟨p0.length, segLen sg + p0.length, segText sg⟩) := by
        rw [hshape]
        exact chooseMatch_seg sg hp hsg
      have hslen : (renderLine p0 ((sg, p) :: rest')).length
          = p0.length + segLen sg + (p ++ renderTail rest').length := by
        rw [hshape]
        simp [renderSeg_length sg]
        omega
      have hne : renderLine p0 ((sg, p) :: rest') ≠ [] := by
        intro hnil
        have := segLen_ge_two sg
        rw [hnil] at hslen
        simp at hslen
        omega
      cases fuel with
      | zero => omega
      | succ f =>
          rw [tokenizeAux_step hne hchoose]
          have htake : (renderLine p0 ((sg, p) :: rest')).take p0.length = p0 := by
            rw [hshape]
            exact List.take_left _ _
          have hdrop : (renderLine p0 ((sg, p) :: rest')).drop (segLen sg + p0.length)
              = p ++ renderTail rest' := by
            rw [hshape, Nat.add_comm (segLen sg) p0.length, List.drop_append,
              ← renderSeg_length sg]
            exact List.drop_left _ _
          have hrec : tokenizeAux f ((renderLine p0 ((sg, p) :: rest')).drop
              (segLen sg + p0.length))
              = (if p.isEmpty then [] else [Span.plain p]) ++ expSpans rest' := by
            rw [hdrop]
            have hfu' : (renderLine p rest').length < f := by
              have h2 := segLen_ge_two sg
              have heq : (renderLine p rest').length = (p ++ renderTail rest').length := by
                simp [renderLine]
              omega
            exact ih p f hok'.2 hpp hfu'
          rw [hrec, htake]
          have hstart : ((⟨p0.length, segLen sg + p0.length, segText sg⟩ : RMatch)).start
              = p0.length := rfl
          simp only [hstart]
          cases hp0 : p0.isEmpty with
          | true =>
              have : p0 = [] := by
                cases p0
                · rfl
                · simp at hp0
              subst this
              simp only [expSpans, List.nil_append]
              by_cases hpe : p.isEmpty <;> simp [hpe]
          | false =>
              have hlen0 : 0 < p0.length := by
                cases p0
                · simp at hp0
                · simp
              rw [if_pos hlen0]
              simp only [expSpans, List.singleton_append, List.cons_append,
                List.nil_append]
              by_cases hpe : p.isEmpty <;> simp [hpe]

theorem spanText_mkSpan (k : MKind) (t : List Char) : spanText (mkSpan k t) = t := by
  cases k <;> rfl

theorem spanConcat_append (a b : List Span) :
    spanConcat (a ++ b) = spanConcat a ++ spanConcat b := by
  induction a with
  | nil => rfl
  | cons s ss ih => simp [spanConcat, ih]

theorem spanConcat_expSpans :
    ∀ (segs : List (Seg × List Char)) (p0 : List Char),
      spanConcat ((if p0.isEmpty then [] else [Span.plain p0]) ++ expSpans segs)
        = visText p0 segs := by
  intro segs
  induction segs with
  | nil =>
      intro p0
      by_cases hp0 : p0.isEmpty
      · have : p0 = [] := by cases p0 <;> simp_all
        subst this
        rfl
      · have : ¬(p0 = []) := by cases p0 <;> simp_all
        simp [hp0, spanConcat, spanText, visText]
  | cons sp rest ih =>
      intro p0
      obtain ⟨sg, p⟩ := sp
      have hstep : spanConcat (expSpans ((sg, p) :: rest))
          = segText sg ++ visText p rest := by
        simp only [expSpans, spanConcat, spanText_mkSpan]
        have : spanConcat (if p.isEmpty then expSpans rest
            else Span.plain p :: expSpans rest)
            = spanConcat ((if p.isEmpty then [] else [Span.plain p]) ++ expSpans rest) := by
          by_cases hpe : p.isEmpty <;> simp [hpe, spanConcat]
        rw [this, ih p]
      by_cases hp0 : p0.isEmpty
      · have : p0 = [] := by cases p0 <;> simp_all
        subst this
        show spanConcat (expSpans ((sg, p) :: rest)) = visText [] ((sg, p) :: rest)
        rw [hstep]
        simp [visText]
      · show spanConcat ((if p0.isEmpty then [] else [Span.plain p0])
            ++ expSpans ((sg, p) :: rest)) = visText p0 ((sg, p) :: rest)
        rw [if_neg hp0, List.singleton_append]
        show p0 ++ spanConcat (expSpans ((sg, p) :: rest)) = visText p0 ((sg, p) :: rest)
        rw [hstep]
        simp [visText]

/-- C3: for a line consisting of one well-formed inline span of each of
the four kinds, separated by delimiter-free plain text, the tokenizer
emits exactly the expected spans in left-to-right order, and the
concatenation of the emitted spans' visible texts is the line with the
markup delimiters removed (for a link the visible text is the link text:
the source drops the URL). -/
theorem c3_roundtrip (p0 : List Char) (segs : List (Seg × List Char))
    (hp : plainOK p0 = true) (hok : lineOK segs = true)
    (_hperm : (segs.map (fun sp => segKind sp.1)).Perm
        [MKind.bold, MKind.italic, MKind.code, MKind.link]) :
    tokenizeInline (renderLine p0 segs)
      = (if p0.isEmpty then [] else [Span.plain p0]) ++ expSpans segs
    ∧ spanConcat (tokenizeInline (renderLine p0 segs)) = visText p0 segs := by
  have h1 := tokenizeAux_render segs p0 ((renderLine p0 segs).length + 1) hok hp
    (Nat.lt_succ_self _)
  refine ⟨h1, ?_⟩
  rw [show tokenizeInline (renderLine p0 segs)
      = tokenizeAux ((renderLine p0 segs).length + 1) (renderLine p0 segs) from rfl]
  rw [h1]
  exact spanConcat_expSpans segs p0

/-- Concrete line for the C3 witness:
`a **b** *d* `f` [h](u) i` (with single spaces as fillers). -/
def c3segs : List (Seg × List Char) :=
  [(Seg.bold false ['b'], [' ']), (Seg.italic false ['d'], [' ']),
   (Seg.code ['f'], [' ']), (Seg.link ['h'] ['u'], [' ', 'i'])]

theorem c3_witness :
    tokenizeInline (renderLine ['a', ' '] c3segs)
      = (if (['a', ' '] : List Char).isEmpty then [] else [Span.plain ['a', ' ']])
        ++ expSpans c3segs
    ∧ spanConcat (tokenizeInline (renderLine ['a', ' '] c3segs))
        = visText ['a', ' '] c3segs :=
  c3_roundtrip ['a', ' '] c3segs (by decide) (by decide) (List.Perm.refl _)

/-! ### Claims C7, C8, C9 -/

/-- C7: the configuration merge is a recursive key-wise union: an empty
override leaves the defaults unchanged; per key, a leaf override value
replaces the default, a nested mapping merges into the corresponding
default mapping, keys absent from the override keep their defaults, and
overriding one leaf field of a nested profile changes only that field,
leaving sibling fields at their default values. -/
theorem c7_merge_laws (dk uk : List (String × Json)) (k : String)
    (hnd : (uk.map Prod.fst).Nodup) :
    mergeConfigs dk [] = dk
    ∧ lookupKey (mergeConfigs dk uk) k = mergedLookupSpec (lookupKey dk k) (lookupKey uk k)
    ∧ (lookupKey uk k = none → lookupKey (mergeConfigs dk uk) k = lookupKey dk k)
    ∧ (∀ v dv, lookupKey uk k = some v → lookupKey dk k = some dv →
        dv.isObj = false ∨ v.isObj = false → lookupKey (mergeConfigs dk uk) k = some v)
    ∧ (∀ dsub usub, lookupKey uk k = some (Json.obj usub) →
        lookupKey dk k = some (Json.obj dsub) →
        lookupKey (mergeConfigs dk uk) k = some (Json.obj (mergeConfigs dsub usub)))
    ∧ (∀ v, lookupKey uk k = some v → lookupKey dk k = none →
        lookupKey (mergeConfigs dk uk) k = some v)
    ∧ (∀ k1 k2 w dsub, lookupKey dk k1 = some (Json.obj dsub) → w.isObj = false →
        lookupKey (mergeConfigs dk [(k1, jobj [(k2, w)])]) k1
          = some (Json.obj (mergeConfigs dsub [(k2, w)]))
        ∧ (∀ k', k' ≠ k2 → lookupKey (mergeConfigs dsub [(k2, w)]) k' = lookupKey dsub k')
        ∧ lookupKey (mergeConfigs dsub [(k2, w)]) k2 = some w) := by
  have main := mergeConfigs_lookup uk dk k hnd
  refine ⟨mergeConfigs_nil dk, main, ?_, ?_, ?_, ?_, ?_⟩
  · intro hu; rw [main, hu]; rfl
  · intro v dv hu hd hno
    rw [main, hu, hd]
    cases dv <;> cases v <;> simp_all [mergedLookupSpec, Json.isObj]
  · intro dsub usub hu hd
    rw [main, hu, hd]
    rfl
  · intro v hu hd
    rw [main, hu, hd]
    cases v <;> rfl
  · intro k1 k2 w dsub hd hw
    have hnd1 : (([(k1, jobj [(k2, w)])].map Prod.fst)).Nodup := by simp
    have hnd2 : (([(k2, w)].map Prod.fst)).Nodup := by simp
    have h1 := mergeConfigs_lookup [(k1, jobj [(k2, w)])] dk k1 hnd1
    have hin : lookupKey [(k1, jobj [(k2, w)])] k1 = some (jobj [(k2, w)]) := by
      simp [lookupKey]
    rw [hin, hd] at h1
    refine ⟨h1, ?_, ?_⟩
    · intro k' hk'
      have h2 := mergeConfigs_lookup [(k2, w)] dsub k' hnd2
      have hout : lookupKey [(k2, w)] k' = none := by
        have hne : ¬(k2 = k') := fun hh => hk' hh.symm
        simp [lookupKey, hne]
      rw [hout] at h2
      exact h2
    · have h2 := mergeConfigs_lookup [(k2, w)] dsub k2 hnd2
      have hin2 : lookupKey [(k2, w)] k2 = some w := by simp [lookupKey]
      rw [hin2] at h2
      rw [h2]
      cases hdv : lookupKey dsub k2 with
      | none => rfl
      | some dv => cases dv <;> cases w <;> simp_all [mergedLookupSpec, Json.isObj]

/-- Concrete inputs for the C7 witness. -/
def c7dk : List (String × Json) :=
  [("a", Json.num 1), ("prof", jobj [("x", Json.num 1), ("y", Json.num 2)])]

def c7uk : List (String × Json) :=
  [("prof", jobj [("x", Json.num 9)])]

theorem c7_witness :
    lookupKey (mergeConfigs c7dk c7uk) "prof"
      = some (jobj [("x", Json.num 9), ("y", Json.num 2)]) :=
  ((c7_merge_laws c7dk c7uk "prof" (by decide)).2.1).trans rfl

/-- C8: the code bug behind the claim that loading never mutates the
built-in defaults.  `load_config` copies `DEFAULT_CONFIG` only shallowly,
so merging the override `{"styles": {"h1": {"font_size": 99}}}` mutates
the shared nested dicts: afterwards `DEFAULT_CONFIG["styles"]["h1"]
["font_size"]` is 99 instead of 18, and a later override-free load would
return the mutated defaults. -/
theorem c8_defaults_mutated :
    lookupPath defaultConfig ["styles", "h1", "font_size"] = some (Json.num 18)
    ∧ lookupPath (defaultsAfterLoad defaultConfig mutOverride) ["styles", "h1", "font_size"]
        = some (Json.num 99)
    ∧ defaultsAfterLoad defaultConfig mutOverride ≠ defaultConfig := by
  refine ⟨rfl, rfl, ?_⟩
  intro h
  have h99 : lookupPath (defaultsAfterLoad defaultConfig mutOverride)
      ["styles", "h1", "font_size"] = some (Json.num 99) := rfl
  rw [h] at h99
  have h18 : lookupPath defaultConfig ["styles", "h1", "font_size"]
      = some (Json.num 18) := rfl
  rw [h18] at h99
  simp at h99

/-- C9 counterexample: for a missing override path the claim asserts a
warning is reported, but `load_config` skips a nonexistent path silently
(`if config_file and os.path.exists(config_file)`), so no warning is
emitted. -/
theorem c9_counterexample : (loadConfig OverrideInput.missing).2 = false := rfl

/-- C9 (amended): a missing override path makes `load_config` return the
defaults-only configuration silently (no warning); an override whose
content fails to parse (or parses to a non-mapping) is caught, produces a
warning, and the defaults-only configuration is returned; in the model
the function is total, so no input aborts the conversion. -/
theorem c9_load_nonfatal :
    loadConfig OverrideInput.missing = (defaultConfig, false)
    ∧ loadConfig OverrideInput.unparsable = (defaultConfig, true)
    ∧ loadConfig OverrideInput.parsedOther = (defaultConfig, true) :=
  ⟨rfl, rfl, rfl⟩

end MdWord
